import Mathlib

/-!
Verification of the AST traversal dispatcher of the minidecaf repository
(file `src/Visitor.h`).

The source is a single C++ class `Visitor`: a virtual entry operation
`operator()(std::shared_ptr<ASTNode>)` that reads the node tag and
dispatches to one overridable per-kind handler `visit(...)`, plus the
default handler bodies, which recurse through children by re-invoking the
entry operation.

The embedding below represents a `std::shared_ptr<ASTNode>` as the
inductive `Handle` (the null handle is a constructor), and the walk as a
recursive function producing a `WalkResult`: the list of observable
events (entry-operation invocations and per-kind handler invocations,
each labelled by the position of the node in the tree) together with an
optional fatal outcome.  Exceptions in the C++ code become the `err`
field; dereferencing a null handle (`op->nodeType()` on a null
`shared_ptr`), which is undefined behavior in C++, is modelled as the
fatal outcome `NullDeref`, distinct from every thrown error.

Subclass overrides that perform their own work and do not invoke the
default handler of a kind are modelled by the `cut` parameter of the
walker: `cut k = true` means the handler of kind `k` is overridden by a
handler that does not recurse.  The base-class (default) walk is
`cut = fun _ => false`.
-/

namespace MDV

/-- The tag enumeration `ASTNodeType`: the twenty kinds of the closed
set, plus `UnknownTag code` standing for an enum value outside the
closed set (obtainable in C++ by casting an integer to the enum). -/
inductive ASTNodeType where
  | Program
  | Function
  | StmtSeq
  | Integer
  | Var
  | Assign
  | Invoke
  | IfThenElse
  | While
  | Call
  | Add
  | Sub
  | Mul
  | Div
  | LT
  | LE
  | GT
  | GE
  | EQ
  | NE
  | UnknownTag (code : Nat)
  deriving DecidableEq, Repr

/-- A shared handle to an AST node (`std::shared_ptr<ASTNode>`).
`null` is the null handle; every other constructor is a node of the
corresponding concrete node class, holding handles to its children
exactly as the node classes consumed by `Visitor.h` do (`funcs_`,
`body_`, `stmts_`, `var_`, `expr_`, `cond_`, `thenCase_`, `elseCase_`,
`lhs_`, `rhs_`).  Leaf classes (`IntegerNode`, `VarNode`, `CallNode`)
carry no traversable children; their payloads (literal values, names)
are irrelevant to the walker and omitted.  `unknown code` is a node
whose tag is outside the closed set. -/
inductive Handle where
  | null
  | program (funcs : List Handle)
  | function (body : Handle)
  | stmtSeq (stmts : List Handle)
  | integer
  | var
  | assign (var expr : Handle)
  | invoke (expr : Handle)
  | ifThenElse (cond thenCase elseCase : Handle)
  | whileLoop (cond body : Handle)
  | call
  | add (lhs rhs : Handle)
  | sub (lhs rhs : Handle)
  | mul (lhs rhs : Handle)
  | div (lhs rhs : Handle)
  | lt (lhs rhs : Handle)
  | le (lhs rhs : Handle)
  | gt (lhs rhs : Handle)
  | ge (lhs rhs : Handle)
  | eq (lhs rhs : Handle)
  | ne (lhs rhs : Handle)
  | unknown (code : Nat)

/-- A node position in a tree: the list of child indices on the way from
the root, in the numbering used by the default handler of the parent
(first walked child is 0, second is 1, the optional `elseCase` is 2). -/
abbrev Path := List Nat

/-- The observable events of a walk.  `enter p` records that the virtual
entry operation `operator()` was invoked on the handle at position `p`;
`visit p k` records that the per-kind handler for kind `k` was invoked
on the node at position `p`. -/
inductive Event where
  | enter (p : Path)
  | visit (p : Path) (k : ASTNodeType)
  deriving DecidableEq, Repr

/-- Fatal outcomes of a walk.  `UnknownKind code` is the
`std::runtime_error` thrown by the default case of the dispatch switch.
`NullChild` is the error kind that the specification document names for
an absent required child; the code never produces it and it is included
only so that statements about it can be written.  `NullDeref` models the
undefined behavior of dereferencing a null `shared_ptr` in
`op->nodeType()`. -/
inductive WalkError where
  | UnknownKind (code : Nat)
  | NullChild
  | NullDeref
  deriving DecidableEq, Repr

/-- Result of a walk: the events that happened, in order, and the fatal
outcome, if any.  Events preceding a fatal outcome are retained: side
effects of handlers already run are not rolled back. -/
structure WalkResult where
  events : List Event
  err : Option WalkError
  deriving DecidableEq, Repr

/-- The result of a handler body that does nothing (`visit` of
`IntegerNode`, `VarNode`, `CallNode`). -/
def doneR : WalkResult := ⟨[], none⟩

/-- Sequencing of two walk steps inside a handler body: run `a`; if it
ended fatally the rest of the body does not run (C++ exception
propagation / crash), otherwise run `b`. -/
def seqR (a b : WalkResult) : WalkResult :=
  match a.err with
  | some _ => a
  | none => ⟨a.events ++ b.events, b.err⟩

/-- The null test `op->elseCase_ != nullptr` (negated). -/
def Handle.isNull : Handle → Bool
  | .null => true
  | _ => false

/-- One successful dispatch: the entry operation was invoked at `p`
(`enter`), the tag matched kind `k` and the handler for `k` was invoked
(`visit`).  If the handler of `k` is overridden by a non-recursing
handler (`cut k = true`) nothing else happens; otherwise the default
handler body `body` runs after it. -/
def nodeR (cut : ASTNodeType → Bool) (k : ASTNodeType) (p : Path) (body : WalkResult) : WalkResult :=
  if cut k then ⟨[.enter p, .visit p k], none⟩
  else ⟨.enter p :: .visit p k :: body.events, body.err⟩

mutual

/-- `Visitor::operator()`: dereference the handle to read the tag,
dispatch to the per-kind handler; an unrecognized tag throws.  The
default handler bodies are inlined per kind, each re-invoking the entry
operation on the children in the order written in the source
(`Visitor.h` lines 45-105).  `p` is the position of the node, used only
to label the emitted events; the child at argument position `i` of a
handler is at position `p ++ [i]`. -/
def runEntry (cut : ASTNodeType → Bool) (h : Handle) (p : Path) : WalkResult :=
  match h with
  | .null => ⟨[.enter p], some .NullDeref⟩
  | .unknown code => ⟨[.enter p], some (.UnknownKind code)⟩
  | .program funcs => nodeR cut .Program p (runList cut funcs p 0)
  | .function body => nodeR cut .Function p (runEntry cut body (p ++ [0]))
  | .stmtSeq stmts => nodeR cut .StmtSeq p (runList cut stmts p 0)
  | .integer => nodeR cut .Integer p doneR
  | .var => nodeR cut .Var p doneR
  | .assign v e => nodeR cut .Assign p (seqR (runEntry cut v (p ++ [0])) (runEntry cut e (p ++ [1])))
  | .invoke e => nodeR cut .Invoke p (runEntry cut e (p ++ [0]))
  | .ifThenElse c t e =>
      nodeR cut .IfThenElse p
        (seqR (runEntry cut c (p ++ [0]))
          (seqR (runEntry cut t (p ++ [1]))
            (if e.isNull then doneR else runEntry cut e (p ++ [2]))))
  | .whileLoop c b => nodeR cut .While p (seqR (runEntry cut c (p ++ [0])) (runEntry cut b (p ++ [1])))
  | .call => nodeR cut .Call p doneR
  | .add l r => nodeR cut .Add p (seqR (runEntry cut l (p ++ [0])) (runEntry cut r (p ++ [1])))
  | .sub l r => nodeR cut .Sub p (seqR (runEntry cut l (p ++ [0])) (runEntry cut r (p ++ [1])))
  | .mul l r => nodeR cut .Mul p (seqR (runEntry cut l (p ++ [0])) (runEntry cut r (p ++ [1])))
  | .div l r => nodeR cut .Div p (seqR (runEntry cut l (p ++ [0])) (runEntry cut r (p ++ [1])))
  | .lt l r => nodeR cut .LT p (seqR (runEntry cut l (p ++ [0])) (runEntry cut r (p ++ [1])))
  | .le l r => nodeR cut .LE p (seqR (runEntry cut l (p ++ [0])) (runEntry cut r (p ++ [1])))
  | .gt l r => nodeR cut .GT p (seqR (runEntry cut l (p ++ [0])) (runEntry cut r (p ++ [1])))
  | .ge l r => nodeR cut .GE p (seqR (runEntry cut l (p ++ [0])) (runEntry cut r (p ++ [1])))
  | .eq l r => nodeR cut .EQ p (seqR (runEntry cut l (p ++ [0])) (runEntry cut r (p ++ [1])))
  | .ne l r => nodeR cut .NE p (seqR (runEntry cut l (p ++ [0])) (runEntry cut r (p ++ [1])))
termination_by sizeOf h

/-- The `for`-loops of `visit(const ProgramNode*)` and
`visit(const StmtSeqNode*)`: invoke the entry operation on each element
in order; an exception aborts the loop.  `i` is the index of the first
element of `l` among the children of the enclosing node. -/
def runList (cut : ASTNodeType → Bool) (l : List Handle) (p : Path) (i : Nat) : WalkResult :=
  match l with
  | [] => doneR
  | s :: ss => seqR (runEntry cut s (p ++ [i])) (runList cut ss p (i + 1))
termination_by sizeOf l

end

/-- The trivial override set: no handler overridden (the base class). -/
def cutNone : ASTNodeType → Bool := fun _ => false

/-- The override set of a pass that overrides exactly the handler of
kind `k0` with a handler that does not invoke the default. -/
def cutOnly (k0 : ASTNodeType) : ASTNodeType → Bool := fun k => k == k0

/-- A default walk: the entry operation applied to the root handle with
no handlers overridden. -/
def walk (h : Handle) : WalkResult := runEntry cutNone h []

mutual

/-- Well-formedness of a tree, as required by the data-model invariants
of the specification: every tag is in the closed set, and every required
child handle is non-null; only `elseCase` of `IfThenElse` may be null. -/
def wfE (h : Handle) : Bool :=
  match h with
  | .null => false
  | .unknown _ => false
  | .program funcs => wfL funcs
  | .function body => wfE body
  | .stmtSeq stmts => wfL stmts
  | .integer => true
  | .var => true
  | .assign v e => wfE v && wfE e
  | .invoke e => wfE e
  | .ifThenElse c t e =>
      wfE c && wfE t && (if e.isNull then true else wfE e)
  | .whileLoop c b => wfE c && wfE b
  | .call => true
  | .add l r => wfE l && wfE r
  | .sub l r => wfE l && wfE r
  | .mul l r => wfE l && wfE r
  | .div l r => wfE l && wfE r
  | .lt l r => wfE l && wfE r
  | .le l r => wfE l && wfE r
  | .gt l r => wfE l && wfE r
  | .ge l r => wfE l && wfE r
  | .eq l r => wfE l && wfE r
  | .ne l r => wfE l && wfE r
termination_by sizeOf h

/-- Well-formedness of a child list. -/
def wfL (l : List Handle) : Bool :=
  match l with
  | [] => true
  | s :: ss => wfE s && wfL ss
termination_by sizeOf l

end

mutual

/-- The nodes of the tree rooted at `h` (placed at position `p`), in
pre-order, each with its position and kind.  A null handle contributes
no node; a node with a tag outside the closed set is still a node.
Child positions follow the numbering of the default handlers, and the
absent `elseCase` contributes nothing. -/
def nodesE (h : Handle) (p : Path) : List (Path × ASTNodeType) :=
  match h with
  | .null => []
  | .unknown code => [(p, .UnknownTag code)]
  | .program funcs => (p, .Program) :: nodesL funcs p 0
  | .function body => (p, .Function) :: nodesE body (p ++ [0])
  | .stmtSeq stmts => (p, .StmtSeq) :: nodesL stmts p 0
  | .integer => [(p, .Integer)]
  | .var => [(p, .Var)]
  | .assign v e => (p, .Assign) :: (nodesE v (p ++ [0]) ++ nodesE e (p ++ [1]))
  | .invoke e => (p, .Invoke) :: nodesE e (p ++ [0])
  | .ifThenElse c t e =>
      (p, .IfThenElse) ::
        (nodesE c (p ++ [0]) ++ nodesE t (p ++ [1]) ++
          (if e.isNull then [] else nodesE e (p ++ [2])))
  | .whileLoop c b => (p, .While) :: (nodesE c (p ++ [0]) ++ nodesE b (p ++ [1]))
  | .call => [(p, .Call)]
  | .add l r => (p, .Add) :: (nodesE l (p ++ [0]) ++ nodesE r (p ++ [1]))
  | .sub l r => (p, .Sub) :: (nodesE l (p ++ [0]) ++ nodesE r (p ++ [1]))
  | .mul l r => (p, .Mul) :: (nodesE l (p ++ [0]) ++ nodesE r (p ++ [1]))
  | .div l r => (p, .Div) :: (nodesE l (p ++ [0]) ++ nodesE r (p ++ [1]))
  | .lt l r => (p, .LT) :: (nodesE l (p ++ [0]) ++ nodesE r (p ++ [1]))
  | .le l r => (p, .LE) :: (nodesE l (p ++ [0]) ++ nodesE r (p ++ [1]))
  | .gt l r => (p, .GT) :: (nodesE l (p ++ [0]) ++ nodesE r (p ++ [1]))
  | .ge l r => (p, .GE) :: (nodesE l (p ++ [0]) ++ nodesE r (p ++ [1]))
  | .eq l r => (p, .EQ) :: (nodesE l (p ++ [0]) ++ nodesE r (p ++ [1]))
  | .ne l r => (p, .NE) :: (nodesE l (p ++ [0]) ++ nodesE r (p ++ [1]))
termination_by sizeOf h

/-- The nodes contributed by a child list starting at child index `i`. -/
def nodesL (l : List Handle) (p : Path) (i : Nat) : List (Path × ASTNodeType) :=
  match l with
  | [] => []
  | s :: ss => nodesE s (p ++ [i]) ++ nodesL ss p (i + 1)
termination_by sizeOf l

end

/-- The position an event is labelled with. -/
def pathOf : Event → Path
  | .enter p => p
  | .visit p _ => p

/-- The handler invocations of an event list, in order: position and
kind of each per-kind handler invocation. -/
def visitsOf (l : List Event) : List (Path × ASTNodeType) :=
  l.filterMap (fun ev =>
    match ev with
    | .visit p k => some (p, k)
    | .enter _ => none)

/-- The entry-operation invocations of an event list, in order. -/
def entersOf (l : List Event) : List Path :=
  l.filterMap (fun ev =>
    match ev with
    | .enter p => some p
    | .visit _ _ => none)

/-- `pathIsUnder q r` holds when `q` is a prefix of `r`: the node at `r`
is the node at `q` or one of its descendants. -/
def pathIsUnder : Path → Path → Bool
  | [], _ => true
  | _ :: _, [] => false
  | a :: as, b :: bs => a == b && pathIsUnder as bs

/-- `properUnder q r` holds when the node at `r` is a strict descendant
of the node at `q`. -/
def properUnder (q r : Path) : Bool := pathIsUnder q r && !(r == q)

/-- Pre-order ranking of positions: `preLe a b` holds when the node at
`a` is walked no later than the node at `b` in a depth-first
left-to-right traversal (`a` is an ancestor-or-self of `b`, or at the
first differing index `a` goes to an earlier sibling). -/
def preLe : Path → Path → Bool
  | [], _ => true
  | _ :: _, [] => false
  | a :: as, b :: bs => a < b || (a == b && preLe as bs)


/-! ### Concrete trees used as test scenarios -/

/-- Scenario S1 of the specification:
`Program[ Function(StmtSeq[ Assign(Var, Add(Var, Integer)) ]) ]`. -/
def exS1 : Handle := .program [.function (.stmtSeq [.assign .var (.add .var .integer)])]

/-- Scenario S5 of the specification: `Add(Mul(Integer, Integer), Integer)`. -/
def exS5 : Handle := .add (.mul .integer .integer) .integer

/-- An `Assign` node whose required child `var_` is the null handle. -/
def cexAssignNull : Handle := .assign .null .var

/-- Two nested nodes of the same kind: `Add(Add(Integer, Integer), Integer)`. -/
def cexDoubleAdd : Handle := .add (.add .integer .integer) .integer

/-- Number of occurrences of `x` in `l` (used to state "exactly once"). -/
def countOcc {α : Type} [DecidableEq α] (l : List α) (x : α) : Nat :=
  (l.filter (fun y => decide (y = x))).length

/-! ### Facts about positions -/

theorem pathIsUnder_refl (p : Path) : pathIsUnder p p = true := by
  induction p with
  | nil => rfl
  | cons a as ih => simp [pathIsUnder, ih]

theorem pathIsUnder_append (p r : Path) : pathIsUnder p (p ++ r) = true := by
  induction p with
  | nil => rfl
  | cons a as ih => simp [pathIsUnder, ih]

theorem pathIsUnder_of_append (p s r : Path)
    (h : pathIsUnder (p ++ s) r = true) : pathIsUnder p r = true := by
  induction p generalizing r with
  | nil => rfl
  | cons a as ih =>
    cases r with
    | nil => simp [pathIsUnder] at h
    | cons b bs =>
      simp [pathIsUnder] at h ⊢
      exact ⟨h.1, ih bs h.2⟩

theorem pathIsUnder_snoc_inj (p : Path) (i j : Nat) (r : Path)
    (hi : pathIsUnder (p ++ [i]) r = true) (hj : pathIsUnder (p ++ [j]) r = true) :
    i = j := by
  induction p generalizing r with
  | nil =>
    cases r with
    | nil => simp [pathIsUnder] at hi
    | cons b bs =>
      simp [pathIsUnder] at hi hj
      omega
  | cons a as ih =>
    cases r with
    | nil => simp [pathIsUnder] at hi
    | cons b bs =>
      simp [pathIsUnder] at hi hj
      exact ih bs hi.2 hj.2

theorem pathIsUnder_snoc_split (q p : Path) (i : Nat)
    (h : pathIsUnder q (p ++ [i]) = true) :
    q = p ++ [i] ∨ pathIsUnder q p = true := by
  induction p generalizing q with
  | nil =>
    cases q with
    | nil => right; rfl
    | cons b bs =>
      simp [pathIsUnder] at h
      cases bs with
      | nil => left; simp [h.1]
      | cons c cs => simp [pathIsUnder] at h
  | cons a as ih =>
    cases q with
    | nil => right; rfl
    | cons b bs =>
      simp [pathIsUnder] at h
      rcases ih bs h.2 with h1 | h2
      · left; simp [h.1, h1]
      · right; simp [pathIsUnder, h.1, h2]

theorem pathIsUnder_length (q r : Path) (h : pathIsUnder q r = true) :
    q.length ≤ r.length := by
  induction q generalizing r with
  | nil => simp
  | cons a as ih =>
    cases r with
    | nil => simp [pathIsUnder] at h
    | cons b bs =>
      simp [pathIsUnder] at h
      simpa using ih bs h.2

theorem pathIsUnder_snoc_ne (p : Path) (i : Nat) (r : Path)
    (h : pathIsUnder (p ++ [i]) r = true) : r ≠ p := by
  intro hr
  have := pathIsUnder_length (p ++ [i]) r h
  subst hr
  simp at this

theorem preLe_refl (p : Path) : preLe p p = true := by
  induction p with
  | nil => rfl
  | cons a as ih => simp [preLe, ih]

theorem preLe_of_under (p r : Path) (h : pathIsUnder p r = true) :
    preLe p r = true := by
  induction p generalizing r with
  | nil => rfl
  | cons a as ih =>
    cases r with
    | nil => simp [pathIsUnder] at h
    | cons b bs =>
      simp [pathIsUnder] at h
      simp [preLe, h.1, ih bs h.2]

theorem preLe_sibling (p : Path) (i j : Nat) (a b : Path)
    (hij : i < j)
    (ha : pathIsUnder (p ++ [i]) a = true)
    (hb : pathIsUnder (p ++ [j]) b = true) :
    preLe a b = true := by
  induction p generalizing a b with
  | nil =>
    cases a with
    | nil => simp [pathIsUnder] at ha
    | cons x xs =>
      cases b with
      | nil => simp [pathIsUnder] at hb
      | cons y ys =>
        simp [pathIsUnder] at ha hb
        simp [preLe]
        omega
  | cons c cs ih =>
    cases a with
    | nil => simp [pathIsUnder] at ha
    | cons x xs =>
      cases b with
      | nil => simp [pathIsUnder] at hb
      | cons y ys =>
        simp [pathIsUnder] at ha hb
        obtain ⟨ha1, ha2⟩ := ha
        obtain ⟨hb1, hb2⟩ := hb
        subst ha1
        subst hb1
        simp [preLe, ih xs ys ha2 hb2]

theorem preLe_sibling_not (p : Path) (i j : Nat) (a b : Path)
    (hij : i < j)
    (ha : pathIsUnder (p ++ [i]) a = true)
    (hb : pathIsUnder (p ++ [j]) b = true) :
    preLe b a = false := by
  induction p generalizing a b with
  | nil =>
    cases a with
    | nil => simp [pathIsUnder] at ha
    | cons x xs =>
      cases b with
      | nil => simp [pathIsUnder] at hb
      | cons y ys =>
        simp [pathIsUnder] at ha hb
        simp [preLe]
        omega
  | cons c cs ih =>
    cases a with
    | nil => simp [pathIsUnder] at ha
    | cons x xs =>
      cases b with
      | nil => simp [pathIsUnder] at hb
      | cons y ys =>
        simp [pathIsUnder] at ha hb
        obtain ⟨ha1, ha2⟩ := ha
        obtain ⟨hb1, hb2⟩ := hb
        subst ha1
        subst hb1
        simp [preLe, ih xs ys ha2 hb2]

/-! ### A simultaneous induction principle for trees and child lists -/

/-- Simultaneous induction over `Handle` and `List Handle`, proved by
strong induction on sizes.  All simultaneous structural lemmas about the
mutually recursive functions above are instances of it. -/
theorem Handle.myInduct (P : Handle → Prop) (Q : List Handle → Prop)
    (hnull : P .null)
    (hunknown : ∀ code, P (.unknown code))
    (hprogram : ∀ fs, Q fs → P (.program fs))
    (hfunction : ∀ b, P b → P (.function b))
    (hstmtSeq : ∀ ss, Q ss → P (.stmtSeq ss))
    (hinteger : P .integer)
    (hvar : P .var)
    (hassign : ∀ v e, P v → P e → P (.assign v e))
    (hinvoke : ∀ e, P e → P (.invoke e))
    (hite : ∀ c t e, P c → P t → P e → P (.ifThenElse c t e))
    (hwhile : ∀ c b, P c → P b → P (.whileLoop c b))
    (hcall : P .call)
    (hadd : ∀ l r, P l → P r → P (.add l r))
    (hsub : ∀ l r, P l → P r → P (.sub l r))
    (hmul : ∀ l r, P l → P r → P (.mul l r))
    (hdiv : ∀ l r, P l → P r → P (.div l r))
    (hlt : ∀ l r, P l → P r → P (.lt l r))
    (hle : ∀ l r, P l → P r → P (.le l r))
    (hgt : ∀ l r, P l → P r → P (.gt l r))
    (hge : ∀ l r, P l → P r → P (.ge l r))
    (heq : ∀ l r, P l → P r → P (.eq l r))
    (hne : ∀ l r, P l → P r → P (.ne l r))
    (hnil : Q [])
    (hcons : ∀ s ss, P s → Q ss → Q (s :: ss)) :
    (∀ h, P h) ∧ (∀ l, Q l) := by
  have key : ∀ n : Nat, (∀ h : Handle, sizeOf h ≤ n → P h) ∧
      (∀ l : List Handle, sizeOf l ≤ n → Q l) := by
    intro n
    induction n with
    | zero =>
      constructor
      · intro h hle0
        cases h <;> simp at hle0
      · intro l hle0
        cases l <;> simp at hle0
    | succ n ih =>
      constructor
      · intro h hle0
        cases h with
        | null => exact hnull
        | unknown code => exact hunknown code
        | program fs => exact hprogram fs (ih.2 fs (by simp at hle0; omega))
        | function b => exact hfunction b (ih.1 b (by simp at hle0; omega))
        | stmtSeq ss => exact hstmtSeq ss (ih.2 ss (by simp at hle0; omega))
        | integer => exact hinteger
        | var => exact hvar
        | assign v e =>
          exact hassign v e (ih.1 v (by simp at hle0; omega)) (ih.1 e (by simp at hle0; omega))
        | invoke e => exact hinvoke e (ih.1 e (by simp at hle0; omega))
        | ifThenElse c t e =>
          exact hite c t e (ih.1 c (by simp at hle0; omega)) (ih.1 t (by simp at hle0; omega))
            (ih.1 e (by simp at hle0; omega))
        | whileLoop c b =>
          exact hwhile c b (ih.1 c (by simp at hle0; omega)) (ih.1 b (by simp at hle0; omega))
        | call => exact hcall
        | add l r =>
          exact hadd l r (ih.1 l (by simp at hle0; omega)) (ih.1 r (by simp at hle0; omega))
        | sub l r =>
          exact hsub l r (ih.1 l (by simp at hle0; omega)) (ih.1 r (by simp at hle0; omega))
        | mul l r =>
          exact hmul l r (ih.1 l (by simp at hle0; omega)) (ih.1 r (by simp at hle0; omega))
        | div l r =>
          exact hdiv l r (ih.1 l (by simp at hle0; omega)) (ih.1 r (by simp at hle0; omega))
        | lt l r =>
          exact hlt l r (ih.1 l (by simp at hle0; omega)) (ih.1 r (by simp at hle0; omega))
        | le l r =>
          exact hle l r (ih.1 l (by simp at hle0; omega)) (ih.1 r (by simp at hle0; omega))
        | gt l r =>
          exact hgt l r (ih.1 l (by simp at hle0; omega)) (ih.1 r (by simp at hle0; omega))
        | ge l r =>
          exact hge l r (ih.1 l (by simp at hle0; omega)) (ih.1 r (by simp at hle0; omega))
        | eq l r =>
          exact heq l r (ih.1 l (by simp at hle0; omega)) (ih.1 r (by simp at hle0; omega))
        | ne l r =>
          exact hne l r (ih.1 l (by simp at hle0; omega)) (ih.1 r (by simp at hle0; omega))
      · intro l hle0
        cases l with
        | nil => exact hnil
        | cons s ss =>
          exact hcons s ss (ih.1 s (by simp at hle0; omega)) (ih.2 ss (by simp at hle0; omega))
  exact ⟨fun h => (key (sizeOf h)).1 h le_rfl, fun l => (key (sizeOf l)).2 l le_rfl⟩

/-! ### Small facts about result composition -/

theorem seqR_err (a b : WalkResult) (ha : a.err = none) : (seqR a b).err = b.err := by
  simp [seqR, ha]

theorem seqR_events (a b : WalkResult) (ha : a.err = none) :
    (seqR a b).events = a.events ++ b.events := by
  simp [seqR, ha]

theorem seqR_err_some (a b : WalkResult) (e : WalkError) (ha : a.err = some e) :
    seqR a b = a := by
  simp [seqR, ha]

theorem nodeR_err_of (cut : ASTNodeType → Bool) (k : ASTNodeType) (p : Path)
    (body : WalkResult) (hb : body.err = none) : (nodeR cut k p body).err = none := by
  unfold nodeR
  split <;> simp [hb]

theorem err_node2 (cut : ASTNodeType → Bool) (k : ASTNodeType) (p : Path)
    (A B : WalkResult) (hA : A.err = none) (hB : B.err = none) :
    (nodeR cut k p (seqR A B)).err = none := by
  apply nodeR_err_of
  rw [seqR_err _ _ hA]
  exact hB

/-! ### A well-formed tree walks without a fatal outcome, whatever the
overrides -/

theorem wf_no_err :
    (∀ h : Handle, ∀ (p : Path) (cut : ASTNodeType → Bool),
      wfE h = true → (runEntry cut h p).err = none) ∧
    (∀ l : List Handle, ∀ (p : Path) (i : Nat) (cut : ASTNodeType → Bool),
      wfL l = true → (runList cut l p i).err = none) := by
  refine Handle.myInduct _ _ ?_ ?_ ?_ ?_ ?_ ?_ ?_ ?_ ?_ ?_ ?_ ?_ ?_ ?_ ?_ ?_ ?_ ?_ ?_ ?_ ?_ ?_ ?_ ?_
  · intro p cut hw
    simp [wfE] at hw
  · intro code p cut hw
    simp [wfE] at hw
  · intro fs ihQ p cut hw
    simp [wfE] at hw
    simp [runEntry]
    exact nodeR_err_of _ _ _ _ (ihQ p 0 cut hw)
  · intro b ih p cut hw
    simp [wfE] at hw
    simp [runEntry]
    exact nodeR_err_of _ _ _ _ (ih _ _ hw)
  · intro ss ihQ p cut hw
    simp [wfE] at hw
    simp [runEntry]
    exact nodeR_err_of _ _ _ _ (ihQ p 0 cut hw)
  · intro p cut hw
    simp [runEntry]
    exact nodeR_err_of _ _ _ _ rfl
  · intro p cut hw
    simp [runEntry]
    exact nodeR_err_of _ _ _ _ rfl
  · intro v e ihv ihe p cut hw
    simp [wfE] at hw
    simp [runEntry]
    exact err_node2 _ _ _ _ _ (ihv _ _ hw.1) (ihe _ _ hw.2)
  · intro e ih p cut hw
    simp [wfE] at hw
    simp [runEntry]
    exact nodeR_err_of _ _ _ _ (ih _ _ hw)
  · intro c t e ihc iht ihe p cut hw
    simp [wfE] at hw
    by_cases he : e.isNull
    · simp [runEntry, he]
      apply nodeR_err_of
      rw [seqR_err _ _ (ihc _ _ hw.1.1)]
      rw [seqR_err _ _ (iht _ _ hw.1.2)]
      rfl
    · simp [he] at hw
      simp [runEntry, he]
      apply nodeR_err_of
      rw [seqR_err _ _ (ihc _ _ hw.1.1)]
      rw [seqR_err _ _ (iht _ _ hw.1.2)]
      exact ihe _ _ hw.2
  · intro c b ihc ihb p cut hw
    simp [wfE] at hw
    simp [runEntry]
    exact err_node2 _ _ _ _ _ (ihc _ _ hw.1) (ihb _ _ hw.2)
  · intro p cut hw
    simp [runEntry]
    exact nodeR_err_of _ _ _ _ rfl
  · intro l r ihl ihr p cut hw
    simp [wfE] at hw
    simp [runEntry]
    exact err_node2 _ _ _ _ _ (ihl _ _ hw.1) (ihr _ _ hw.2)
  · intro l r ihl ihr p cut hw
    simp [wfE] at hw
    simp [runEntry]
    exact err_node2 _ _ _ _ _ (ihl _ _ hw.1) (ihr _ _ hw.2)
  · intro l r ihl ihr p cut hw
    simp [wfE] at hw
    simp [runEntry]
    exact err_node2 _ _ _ _ _ (ihl _ _ hw.1) (ihr _ _ hw.2)
  · intro l r ihl ihr p cut hw
    simp [wfE] at hw
    simp [runEntry]
    exact err_node2 _ _ _ _ _ (ihl _ _ hw.1) (ihr _ _ hw.2)
  · intro l r ihl ihr p cut hw
    simp [wfE] at hw
    simp [runEntry]
    exact err_node2 _ _ _ _ _ (ihl _ _ hw.1) (ihr _ _ hw.2)
  · intro l r ihl ihr p cut hw
    simp [wfE] at hw
    simp [runEntry]
    exact err_node2 _ _ _ _ _ (ihl _ _ hw.1) (ihr _ _ hw.2)
  · intro l r ihl ihr p cut hw
    simp [wfE] at hw
    simp [runEntry]
    exact err_node2 _ _ _ _ _ (ihl _ _ hw.1) (ihr _ _ hw.2)
  · intro l r ihl ihr p cut hw
    simp [wfE] at hw
    simp [runEntry]
    exact err_node2 _ _ _ _ _ (ihl _ _ hw.1) (ihr _ _ hw.2)
  · intro l r ihl ihr p cut hw
    simp [wfE] at hw
    simp [runEntry]
    exact err_node2 _ _ _ _ _ (ihl _ _ hw.1) (ihr _ _ hw.2)
  · intro l r ihl ihr p cut hw
    simp [wfE] at hw
    simp [runEntry]
    exact err_node2 _ _ _ _ _ (ihl _ _ hw.1) (ihr _ _ hw.2)
  · intro p i cut hw
    simp [runList, doneR]
  · intro s ss ihs ihss p i cut hw
    simp [wfL] at hw
    simp [runList]
    rw [seqR_err _ _ (ihs _ _ hw.1)]
    exact ihss _ _ _ hw.2

/-! ### The node list of a tree: prefixed positions, no duplicates -/

theorem glue_nodup (p : Path) (i : Nat) (A B : List (Path × ASTNodeType))
    (hA : ∀ x ∈ A, pathIsUnder (p ++ [i]) x.1 = true)
    (hB : ∀ x ∈ B, ∃ j, i < j ∧ pathIsUnder (p ++ [j]) x.1 = true)
    (nA : (A.map Prod.fst).Nodup) (nB : (B.map Prod.fst).Nodup) :
    ((A ++ B).map Prod.fst).Nodup ∧
      (∀ x ∈ A ++ B, ∃ j, i ≤ j ∧ pathIsUnder (p ++ [j]) x.1 = true) := by
  constructor
  · rw [List.map_append]
    apply List.Nodup.append nA nB
    intro a haA haB
    rw [List.mem_map] at haA haB
    obtain ⟨y, hy, rfl⟩ := haA
    obtain ⟨z, hz, hzy⟩ := haB
    obtain ⟨j, hij, hz2⟩ := hB z hz
    rw [hzy] at hz2
    have := pathIsUnder_snoc_inj p i j y.1 (hA y hy) hz2
    omega
  · intro x hx
    rw [List.mem_append] at hx
    rcases hx with hx | hx
    · exact ⟨i, le_rfl, hA x hx⟩
    · obtain ⟨j, hij, h⟩ := hB x hx
      exact ⟨j, le_of_lt hij, h⟩

theorem cons_block_nodup (p : Path) (k : ASTNodeType) (A : List (Path × ASTNodeType))
    (hA : ∀ x ∈ A, ∃ j : Nat, pathIsUnder (p ++ [j]) x.1 = true)
    (nA : (A.map Prod.fst).Nodup) :
    (((p, k) :: A).map Prod.fst).Nodup ∧ (∀ x ∈ (p, k) :: A, pathIsUnder p x.1 = true) := by
  constructor
  · simp only [List.map_cons]
    rw [List.nodup_cons]
    refine ⟨?_, nA⟩
    intro hmem
    rw [List.mem_map] at hmem
    obtain ⟨y, hy, hyp⟩ := hmem
    obtain ⟨j, hj⟩ := hA y hy
    exact (pathIsUnder_snoc_ne p j y.1 hj) hyp
  · intro x hx
    rcases List.mem_cons.mp hx with rfl | hx
    · exact pathIsUnder_refl p
    · obtain ⟨j, hj⟩ := hA x hx
      exact pathIsUnder_of_append p [j] x.1 hj

theorem nodes_shape :
    (∀ h : Handle, ∀ p : Path,
      (∀ x ∈ nodesE h p, pathIsUnder p x.1 = true) ∧ ((nodesE h p).map Prod.fst).Nodup) ∧
    (∀ l : List Handle, ∀ (p : Path) (i : Nat),
      (∀ x ∈ nodesL l p i, ∃ j, i ≤ j ∧ pathIsUnder (p ++ [j]) x.1 = true) ∧
        ((nodesL l p i).map Prod.fst).Nodup) := by
  refine Handle.myInduct _ _ ?_ ?_ ?_ ?_ ?_ ?_ ?_ ?_ ?_ ?_ ?_ ?_ ?_ ?_ ?_ ?_ ?_ ?_ ?_ ?_ ?_ ?_ ?_ ?_
  · intro p
    simp [nodesE]
  · intro code p
    simp [nodesE, pathIsUnder_refl]
  · intro fs ihQ p
    simp only [nodesE]
    have hQ := ihQ p 0
    have hx : ∀ x ∈ nodesL fs p 0, ∃ j : Nat, pathIsUnder (p ++ [j]) x.1 = true := by
      intro x hx
      obtain ⟨j, _, hj⟩ := hQ.1 x hx
      exact ⟨j, hj⟩
    have hc := cons_block_nodup p .Program _ hx hQ.2
    exact ⟨hc.2, hc.1⟩
  · intro b ih p
    simp only [nodesE]
    have hb := ih (p ++ [0])
    have hx : ∀ x ∈ nodesE b (p ++ [0]), ∃ j : Nat, pathIsUnder (p ++ [j]) x.1 = true :=
      fun x hx => ⟨0, hb.1 x hx⟩
    have hc := cons_block_nodup p .Function _ hx hb.2
    exact ⟨hc.2, hc.1⟩
  · intro ss ihQ p
    simp only [nodesE]
    have hQ := ihQ p 0
    have hx : ∀ x ∈ nodesL ss p 0, ∃ j : Nat, pathIsUnder (p ++ [j]) x.1 = true := by
      intro x hx
      obtain ⟨j, _, hj⟩ := hQ.1 x hx
      exact ⟨j, hj⟩
    have hc := cons_block_nodup p .StmtSeq _ hx hQ.2
    exact ⟨hc.2, hc.1⟩
  · intro p
    simp [nodesE, pathIsUnder_refl]
  · intro p
    simp [nodesE, pathIsUnder_refl]
  · intro v e ihv ihe p
    simp only [nodesE]
    have hv := ihv (p ++ [0])
    have he := ihe (p ++ [1])
    have hg := glue_nodup p 0 _ _ (hv.1)
      (fun x hx => ⟨1, by omega, he.1 x hx⟩) hv.2 he.2
    have hx : ∀ x ∈ nodesE v (p ++ [0]) ++ nodesE e (p ++ [1]),
        ∃ j : Nat, pathIsUnder (p ++ [j]) x.1 = true := by
      intro x hx
      obtain ⟨j, _, hj⟩ := hg.2 x hx
      exact ⟨j, hj⟩
    have hc := cons_block_nodup p .Assign _ hx hg.1
    exact ⟨hc.2, hc.1⟩
  · intro e ih p
    simp only [nodesE]
    have hb := ih (p ++ [0])
    have hx : ∀ x ∈ nodesE e (p ++ [0]), ∃ j : Nat, pathIsUnder (p ++ [j]) x.1 = true :=
      fun x hx => ⟨0, hb.1 x hx⟩
    have hc := cons_block_nodup p .Invoke _ hx hb.2
    exact ⟨hc.2, hc.1⟩
  · intro c t e ihc iht ihe p
    simp only [nodesE]
    have hc0 := ihc (p ++ [0])
    have ht1 := iht (p ++ [1])
    by_cases hnl : e.isNull
    · simp only [hnl, if_true, List.append_nil]
      have hg := glue_nodup p 0 _ _ (hc0.1)
        (fun x hx => ⟨1, by omega, ht1.1 x hx⟩) hc0.2 ht1.2
      have hx : ∀ x ∈ nodesE c (p ++ [0]) ++ nodesE t (p ++ [1]),
          ∃ j : Nat, pathIsUnder (p ++ [j]) x.1 = true := by
        intro x hx
        obtain ⟨j, _, hj⟩ := hg.2 x hx
        exact ⟨j, hj⟩
      have hcb := cons_block_nodup p .IfThenElse _ hx hg.1
      exact ⟨hcb.2, hcb.1⟩
    · simp only [hnl, if_false, Bool.false_eq_true]
      have he2 := ihe (p ++ [2])
      rw [List.append_assoc]
      have hg1 := glue_nodup p 1 _ _ (ht1.1)
        (fun x hx => ⟨2, by omega, he2.1 x hx⟩) ht1.2 he2.2
      have hg0 := glue_nodup p 0 _ _ (hc0.1)
        (fun x hx => by
          obtain ⟨j, hj1, hj2⟩ := hg1.2 x hx
          exact ⟨j, by omega, hj2⟩) hc0.2 hg1.1
      have hx : ∀ x ∈ nodesE c (p ++ [0]) ++ (nodesE t (p ++ [1]) ++ nodesE e (p ++ [2])),
          ∃ j : Nat, pathIsUnder (p ++ [j]) x.1 = true := by
        intro x hx
        obtain ⟨j, _, hj⟩ := hg0.2 x hx
        exact ⟨j, hj⟩
      have hcb := cons_block_nodup p .IfThenElse _ hx hg0.1
      exact ⟨hcb.2, hcb.1⟩
  · intro c b ihc ihb p
    simp only [nodesE]
    have hv := ihc (p ++ [0])
    have he := ihb (p ++ [1])
    have hg := glue_nodup p 0 _ _ (hv.1)
      (fun x hx => ⟨1, by omega, he.1 x hx⟩) hv.2 he.2
    have hx : ∀ x ∈ nodesE c (p ++ [0]) ++ nodesE b (p ++ [1]),
        ∃ j : Nat, pathIsUnder (p ++ [j]) x.1 = true := by
      intro x hx
      obtain ⟨j, _, hj⟩ := hg.2 x hx
      exact ⟨j, hj⟩
    have hc := cons_block_nodup p .While _ hx hg.1
    exact ⟨hc.2, hc.1⟩
  · intro p
    simp [nodesE, pathIsUnder_refl]
  · intro l r ihl ihr p
    simp only [nodesE]
    have hv := ihl (p ++ [0])
    have he := ihr (p ++ [1])
    have hg := glue_nodup p 0 _ _ (hv.1)
      (fun x hx => ⟨1, by omega, he.1 x hx⟩) hv.2 he.2
    have hx : ∀ x ∈ nodesE l (p ++ [0]) ++ nodesE r (p ++ [1]),
        ∃ j : Nat, pathIsUnder (p ++ [j]) x.1 = true := by
      intro x hx
      obtain ⟨j, _, hj⟩ := hg.2 x hx
      exact ⟨j, hj⟩
    have hc := cons_block_nodup p .Add _ hx hg.1
    exact ⟨hc.2, hc.1⟩
  · intro l r ihl ihr p
    simp only [nodesE]
    have hv := ihl (p ++ [0])
    have he := ihr (p ++ [1])
    have hg := glue_nodup p 0 _ _ (hv.1)
      (fun x hx => ⟨1, by omega, he.1 x hx⟩) hv.2 he.2
    have hx : ∀ x ∈ nodesE l (p ++ [0]) ++ nodesE r (p ++ [1]),
        ∃ j : Nat, pathIsUnder (p ++ [j]) x.1 = true := by
      intro x hx
      obtain ⟨j, _, hj⟩ := hg.2 x hx
      exact ⟨j, hj⟩
    have hc := cons_block_nodup p .Sub _ hx hg.1
    exact ⟨hc.2, hc.1⟩
  · intro l r ihl ihr p
    simp only [nodesE]
    have hv := ihl (p ++ [0])
    have he := ihr (p ++ [1])
    have hg := glue_nodup p 0 _ _ (hv.1)
      (fun x hx => ⟨1, by omega, he.1 x hx⟩) hv.2 he.2
    have hx : ∀ x ∈ nodesE l (p ++ [0]) ++ nodesE r (p ++ [1]),
        ∃ j : Nat, pathIsUnder (p ++ [j]) x.1 = true := by
      intro x hx
      obtain ⟨j, _, hj⟩ := hg.2 x hx
      exact ⟨j, hj⟩
    have hc := cons_block_nodup p .Mul _ hx hg.1
    exact ⟨hc.2, hc.1⟩
  · intro l r ihl ihr p
    simp only [nodesE]
    have hv := ihl (p ++ [0])
    have he := ihr (p ++ [1])
    have hg := glue_nodup p 0 _ _ (hv.1)
      (fun x hx => ⟨1, by omega, he.1 x hx⟩) hv.2 he.2
    have hx : ∀ x ∈ nodesE l (p ++ [0]) ++ nodesE r (p ++ [1]),
        ∃ j : Nat, pathIsUnder (p ++ [j]) x.1 = true := by
      intro x hx
      obtain ⟨j, _, hj⟩ := hg.2 x hx
      exact ⟨j, hj⟩
    have hc := cons_block_nodup p .Div _ hx hg.1
    exact ⟨hc.2, hc.1⟩
  · intro l r ihl ihr p
    simp only [nodesE]
    have hv := ihl (p ++ [0])
    have he := ihr (p ++ [1])
    have hg := glue_nodup p 0 _ _ (hv.1)
      (fun x hx => ⟨1, by omega, he.1 x hx⟩) hv.2 he.2
    have hx : ∀ x ∈ nodesE l (p ++ [0]) ++ nodesE r (p ++ [1]),
        ∃ j : Nat, pathIsUnder (p ++ [j]) x.1 = true := by
      intro x hx
      obtain ⟨j, _, hj⟩ := hg.2 x hx
      exact ⟨j, hj⟩
    have hc := cons_block_nodup p .LT _ hx hg.1
    exact ⟨hc.2, hc.1⟩
  · intro l r ihl ihr p
    simp only [nodesE]
    have hv := ihl (p ++ [0])
    have he := ihr (p ++ [1])
    have hg := glue_nodup p 0 _ _ (hv.1)
      (fun x hx => ⟨1, by omega, he.1 x hx⟩) hv.2 he.2
    have hx : ∀ x ∈ nodesE l (p ++ [0]) ++ nodesE r (p ++ [1]),
        ∃ j : Nat, pathIsUnder (p ++ [j]) x.1 = true := by
      intro x hx
      obtain ⟨j, _, hj⟩ := hg.2 x hx
      exact ⟨j, hj⟩
    have hc := cons_block_nodup p .LE _ hx hg.1
    exact ⟨hc.2, hc.1⟩
  · intro l r ihl ihr p
    simp only [nodesE]
    have hv := ihl (p ++ [0])
    have he := ihr (p ++ [1])
    have hg := glue_nodup p 0 _ _ (hv.1)
      (fun x hx => ⟨1, by omega, he.1 x hx⟩) hv.2 he.2
    have hx : ∀ x ∈ nodesE l (p ++ [0]) ++ nodesE r (p ++ [1]),
        ∃ j : Nat, pathIsUnder (p ++ [j]) x.1 = true := by
      intro x hx
      obtain ⟨j, _, hj⟩ := hg.2 x hx
      exact ⟨j, hj⟩
    have hc := cons_block_nodup p .GT _ hx hg.1
    exact ⟨hc.2, hc.1⟩
  · intro l r ihl ihr p
    simp only [nodesE]
    have hv := ihl (p ++ [0])
    have he := ihr (p ++ [1])
    have hg := glue_nodup p 0 _ _ (hv.1)
      (fun x hx => ⟨1, by omega, he.1 x hx⟩) hv.2 he.2
    have hx : ∀ x ∈ nodesE l (p ++ [0]) ++ nodesE r (p ++ [1]),
        ∃ j : Nat, pathIsUnder (p ++ [j]) x.1 = true := by
      intro x hx
      obtain ⟨j, _, hj⟩ := hg.2 x hx
      exact ⟨j, hj⟩
    have hc := cons_block_nodup p .GE _ hx hg.1
    exact ⟨hc.2, hc.1⟩
  · intro l r ihl ihr p
    simp only [nodesE]
    have hv := ihl (p ++ [0])
    have he := ihr (p ++ [1])
    have hg := glue_nodup p 0 _ _ (hv.1)
      (fun x hx => ⟨1, by omega, he.1 x hx⟩) hv.2 he.2
    have hx : ∀ x ∈ nodesE l (p ++ [0]) ++ nodesE r (p ++ [1]),
        ∃ j : Nat, pathIsUnder (p ++ [j]) x.1 = true := by
      intro x hx
      obtain ⟨j, _, hj⟩ := hg.2 x hx
      exact ⟨j, hj⟩
    have hc := cons_block_nodup p .EQ _ hx hg.1
    exact ⟨hc.2, hc.1⟩
  · intro l r ihl ihr p
    simp only [nodesE]
    have hv := ihl (p ++ [0])
    have he := ihr (p ++ [1])
    have hg := glue_nodup p 0 _ _ (hv.1)
      (fun x hx => ⟨1, by omega, he.1 x hx⟩) hv.2 he.2
    have hx : ∀ x ∈ nodesE l (p ++ [0]) ++ nodesE r (p ++ [1]),
        ∃ j : Nat, pathIsUnder (p ++ [j]) x.1 = true := by
      intro x hx
      obtain ⟨j, _, hj⟩ := hg.2 x hx
      exact ⟨j, hj⟩
    have hc := cons_block_nodup p .NE _ hx hg.1
    exact ⟨hc.2, hc.1⟩
  · intro p i
    simp [nodesL]
  · intro s ss ihs ihss p i
    simp only [nodesL]
    have hs := ihs (p ++ [i])
    have hss := ihss p (i + 1)
    have hg := glue_nodup p i _ _ (hs.1)
      (fun x hx => by
        obtain ⟨j, hj1, hj2⟩ := hss.1 x hx
        exact ⟨j, by omega, hj2⟩) hs.2 hss.2
    exact ⟨hg.2, hg.1⟩

/-! ### Distribution of event projections -/

theorem visitsOf_append (l1 l2 : List Event) :
    visitsOf (l1 ++ l2) = visitsOf l1 ++ visitsOf l2 := by
  simp [visitsOf]

theorem entersOf_append (l1 l2 : List Event) :
    entersOf (l1 ++ l2) = entersOf l1 ++ entersOf l2 := by
  simp [entersOf]

theorem visitsOf_cons_enter (p : Path) (l : List Event) :
    visitsOf (.enter p :: l) = visitsOf l := by
  simp [visitsOf]

theorem visitsOf_cons_visit (p : Path) (k : ASTNodeType) (l : List Event) :
    visitsOf (.visit p k :: l) = (p, k) :: visitsOf l := by
  simp [visitsOf]

theorem entersOf_cons_enter (p : Path) (l : List Event) :
    entersOf (.enter p :: l) = p :: entersOf l := by
  simp [entersOf]

theorem entersOf_cons_visit (p : Path) (k : ASTNodeType) (l : List Event) :
    entersOf (.visit p k :: l) = entersOf l := by
  simp [entersOf]

/-! ### The default walk of a well-formed tree: handler invocations are
exactly the nodes in pre-order, and the entry operation fires once per
node -/

theorem trace_node0 (k : ASTNodeType) (p : Path) :
    visitsOf (nodeR cutNone k p doneR).events = [(p, k)] ∧
      entersOf (nodeR cutNone k p doneR).events = [p] := by
  simp [nodeR, cutNone, doneR, visitsOf, entersOf]

theorem trace_node1 (k : ASTNodeType) (p : Path) (A : WalkResult)
    (NA : List (Path × ASTNodeType))
    (hA : visitsOf A.events = NA) (hA2 : entersOf A.events = NA.map Prod.fst) :
    visitsOf (nodeR cutNone k p A).events = (p, k) :: NA ∧
      entersOf (nodeR cutNone k p A).events = ((p, k) :: NA).map Prod.fst := by
  simp [nodeR, cutNone, visitsOf_cons_enter, visitsOf_cons_visit,
    entersOf_cons_enter, entersOf_cons_visit, hA, hA2]

theorem trace_node2 (k : ASTNodeType) (p : Path) (A B : WalkResult)
    (NA NB : List (Path × ASTNodeType))
    (hAerr : A.err = none)
    (hA : visitsOf A.events = NA) (hA2 : entersOf A.events = NA.map Prod.fst)
    (hB : visitsOf B.events = NB) (hB2 : entersOf B.events = NB.map Prod.fst) :
    visitsOf (nodeR cutNone k p (seqR A B)).events = (p, k) :: (NA ++ NB) ∧
      entersOf (nodeR cutNone k p (seqR A B)).events =
        ((p, k) :: (NA ++ NB)).map Prod.fst := by
  have hev := seqR_events A B hAerr
  simp [nodeR, cutNone, hev, visitsOf_cons_enter, visitsOf_cons_visit,
    entersOf_cons_enter, entersOf_cons_visit, visitsOf_append, entersOf_append,
    hA, hA2, hB, hB2]

theorem walk_trace :
    (∀ h : Handle, ∀ p : Path, wfE h = true →
      visitsOf (runEntry cutNone h p).events = nodesE h p ∧
        entersOf (runEntry cutNone h p).events = (nodesE h p).map Prod.fst) ∧
    (∀ l : List Handle, ∀ (p : Path) (i : Nat), wfL l = true →
      visitsOf (runList cutNone l p i).events = nodesL l p i ∧
        entersOf (runList cutNone l p i).events = (nodesL l p i).map Prod.fst) := by
  refine Handle.myInduct _ _ ?_ ?_ ?_ ?_ ?_ ?_ ?_ ?_ ?_ ?_ ?_ ?_ ?_ ?_ ?_ ?_ ?_ ?_ ?_ ?_ ?_ ?_ ?_ ?_
  · intro p hw
    simp [wfE] at hw
  · intro code p hw
    simp [wfE] at hw
  · intro fs ihQ p hw
    simp [wfE] at hw
    simp only [runEntry, nodesE]
    have hQ := ihQ p 0 hw
    exact trace_node1 _ _ _ _ hQ.1 hQ.2
  · intro b ih p hw
    simp [wfE] at hw
    simp only [runEntry, nodesE]
    have hb := ih (p ++ [0]) hw
    exact trace_node1 _ _ _ _ hb.1 hb.2
  · intro ss ihQ p hw
    simp [wfE] at hw
    simp only [runEntry, nodesE]
    have hQ := ihQ p 0 hw
    exact trace_node1 _ _ _ _ hQ.1 hQ.2
  · intro p hw
    simp only [runEntry, nodesE]
    exact trace_node0 _ _
  · intro p hw
    simp only [runEntry, nodesE]
    exact trace_node0 _ _
  · intro v e ihv ihe p hw
    simp [wfE] at hw
    simp only [runEntry, nodesE]
    have hA := ihv (p ++ [0]) hw.1
    have hB := ihe (p ++ [1]) hw.2
    exact trace_node2 _ _ _ _ _ _ (wf_no_err.1 v _ _ hw.1) hA.1 hA.2 hB.1 hB.2
  · intro e ih p hw
    simp [wfE] at hw
    simp only [runEntry, nodesE]
    have hb := ih (p ++ [0]) hw
    exact trace_node1 _ _ _ _ hb.1 hb.2
  · intro c t e ihc iht ihe p hw
    simp [wfE] at hw
    by_cases hnl : e.isNull
    · simp only [runEntry, nodesE, hnl, if_true, List.append_nil]
      have hA := ihc (p ++ [0]) hw.1.1
      have hB := iht (p ++ [1]) hw.1.2
      have h2 := trace_node2 .IfThenElse p _ _ _ _
        (wf_no_err.1 c _ _ hw.1.1) hA.1 hA.2 hB.1 hB.2
      have hBC : seqR (runEntry cutNone t (p ++ [1])) doneR = runEntry cutNone t (p ++ [1]) := by
        have herr := wf_no_err.1 t (p ++ [1]) cutNone hw.1.2
        simp [seqR, herr, doneR]
        rw [← herr]
      rw [hBC]
      exact h2
    · simp [hnl] at hw
      simp only [runEntry, nodesE, hnl, if_false, Bool.false_eq_true]
      have hA := ihc (p ++ [0]) hw.1.1
      have hB := iht (p ++ [1]) hw.1.2
      have hC := ihe (p ++ [2]) hw.2
      have herrB := wf_no_err.1 t (p ++ [1]) cutNone hw.1.2
      have hseq : visitsOf (seqR (runEntry cutNone t (p ++ [1])) (runEntry cutNone e (p ++ [2]))).events
            = nodesE t (p ++ [1]) ++ nodesE e (p ++ [2]) ∧
          entersOf (seqR (runEntry cutNone t (p ++ [1])) (runEntry cutNone e (p ++ [2]))).events
            = (nodesE t (p ++ [1]) ++ nodesE e (p ++ [2])).map Prod.fst := by
        rw [seqR_events _ _ herrB]
        simp [visitsOf_append, entersOf_append, hB.1, hB.2, hC.1, hC.2]
      have herrBC : (seqR (runEntry cutNone t (p ++ [1])) (runEntry cutNone e (p ++ [2]))).err = none := by
        rw [seqR_err _ _ herrB]
        exact wf_no_err.1 e (p ++ [2]) cutNone hw.2
      have h2 := trace_node2 .IfThenElse p _ _ _ _
        (wf_no_err.1 c _ _ hw.1.1) hA.1 hA.2 hseq.1 hseq.2
      rw [List.append_assoc]
      exact h2
  · intro c b ihc ihb p hw
    simp [wfE] at hw
    simp only [runEntry, nodesE]
    have hA := ihc (p ++ [0]) hw.1
    have hB := ihb (p ++ [1]) hw.2
    exact trace_node2 _ _ _ _ _ _ (wf_no_err.1 c _ _ hw.1) hA.1 hA.2 hB.1 hB.2
  · intro p hw
    simp only [runEntry, nodesE]
    exact trace_node0 _ _
  · intro l r ihl ihr p hw
    simp [wfE] at hw
    simp only [runEntry, nodesE]
    have hA := ihl (p ++ [0]) hw.1
    have hB := ihr (p ++ [1]) hw.2
    exact trace_node2 _ _ _ _ _ _ (wf_no_err.1 l _ _ hw.1) hA.1 hA.2 hB.1 hB.2
  · intro l r ihl ihr p hw
    simp [wfE] at hw
    simp only [runEntry, nodesE]
    have hA := ihl (p ++ [0]) hw.1
    have hB := ihr (p ++ [1]) hw.2
    exact trace_node2 _ _ _ _ _ _ (wf_no_err.1 l _ _ hw.1) hA.1 hA.2 hB.1 hB.2
  · intro l r ihl ihr p hw
    simp [wfE] at hw
    simp only [runEntry, nodesE]
    have hA := ihl (p ++ [0]) hw.1
    have hB := ihr (p ++ [1]) hw.2
    exact trace_node2 _ _ _ _ _ _ (wf_no_err.1 l _ _ hw.1) hA.1 hA.2 hB.1 hB.2
  · intro l r ihl ihr p hw
    simp [wfE] at hw
    simp only [runEntry, nodesE]
    have hA := ihl (p ++ [0]) hw.1
    have hB := ihr (p ++ [1]) hw.2
    exact trace_node2 _ _ _ _ _ _ (wf_no_err.1 l _ _ hw.1) hA.1 hA.2 hB.1 hB.2
  · intro l r ihl ihr p hw
    simp [wfE] at hw
    simp only [runEntry, nodesE]
    have hA := ihl (p ++ [0]) hw.1
    have hB := ihr (p ++ [1]) hw.2
    exact trace_node2 _ _ _ _ _ _ (wf_no_err.1 l _ _ hw.1) hA.1 hA.2 hB.1 hB.2
  · intro l r ihl ihr p hw
    simp [wfE] at hw
    simp only [runEntry, nodesE]
    have hA := ihl (p ++ [0]) hw.1
    have hB := ihr (p ++ [1]) hw.2
    exact trace_node2 _ _ _ _ _ _ (wf_no_err.1 l _ _ hw.1) hA.1 hA.2 hB.1 hB.2
  · intro l r ihl ihr p hw
    simp [wfE] at hw
    simp only [runEntry, nodesE]
    have hA := ihl (p ++ [0]) hw.1
    have hB := ihr (p ++ [1]) hw.2
    exact trace_node2 _ _ _ _ _ _ (wf_no_err.1 l _ _ hw.1) hA.1 hA.2 hB.1 hB.2
  · intro l r ihl ihr p hw
    simp [wfE] at hw
    simp only [runEntry, nodesE]
    have hA := ihl (p ++ [0]) hw.1
    have hB := ihr (p ++ [1]) hw.2
    exact trace_node2 _ _ _ _ _ _ (wf_no_err.1 l _ _ hw.1) hA.1 hA.2 hB.1 hB.2
  · intro l r ihl ihr p hw
    simp [wfE] at hw
    simp only [runEntry, nodesE]
    have hA := ihl (p ++ [0]) hw.1
    have hB := ihr (p ++ [1]) hw.2
    exact trace_node2 _ _ _ _ _ _ (wf_no_err.1 l _ _ hw.1) hA.1 hA.2 hB.1 hB.2
  · intro l r ihl ihr p hw
    simp [wfE] at hw
    simp only [runEntry, nodesE]
    have hA := ihl (p ++ [0]) hw.1
    have hB := ihr (p ++ [1]) hw.2
    exact trace_node2 _ _ _ _ _ _ (wf_no_err.1 l _ _ hw.1) hA.1 hA.2 hB.1 hB.2
  · intro p i hw
    simp [runList, nodesL, doneR, visitsOf, entersOf]
  · intro s ss ihs ihss p i hw
    simp [wfL] at hw
    simp only [runList, nodesL]
    have hA := ihs (p ++ [i]) hw.1
    have hB := ihss p (i + 1) hw.2
    rw [seqR_events _ _ (wf_no_err.1 s _ _ hw.1)]
    simp [visitsOf_append, entersOf_append, hA.1, hA.2, hB.1, hB.2]

/-! ### The trace is ordered by the pre-order ranking of positions -/

/-- Event `a` is walked no later than event `b`. -/
def evLE (a b : Event) : Prop := preLe (pathOf a) (pathOf b) = true

theorem sorted_glue (p : Path) (i : Nat) (A B : WalkResult)
    (hA : ∀ ev ∈ A.events, pathIsUnder (p ++ [i]) (pathOf ev) = true)
    (sA : A.events.Pairwise evLE)
    (hB : ∀ ev ∈ B.events, ∃ j, i < j ∧ pathIsUnder (p ++ [j]) (pathOf ev) = true)
    (sB : B.events.Pairwise evLE) :
    (∀ ev ∈ (seqR A B).events, ∃ j, i ≤ j ∧ pathIsUnder (p ++ [j]) (pathOf ev) = true) ∧
      (seqR A B).events.Pairwise evLE := by
  rcases herr : A.err with _ | e
  · have hev : (seqR A B).events = A.events ++ B.events := seqR_events A B herr
    rw [hev]
    constructor
    · intro ev hev2
      rw [List.mem_append] at hev2
      rcases hev2 with hm | hm
      · exact ⟨i, le_rfl, hA ev hm⟩
      · obtain ⟨j, hij, hj⟩ := hB ev hm
        exact ⟨j, le_of_lt hij, hj⟩
    · rw [List.pairwise_append]
      refine ⟨sA, sB, ?_⟩
      intro a ha b hb
      obtain ⟨j, hij, hj⟩ := hB b hb
      exact preLe_sibling p i j _ _ hij (hA a ha) hj
  · rw [seqR_err_some A B e herr]
    constructor
    · intro ev hm
      exact ⟨i, le_rfl, hA ev hm⟩
    · exact sA

theorem sorted_node (cut : ASTNodeType → Bool) (k : ASTNodeType) (p : Path)
    (body : WalkResult)
    (hunder : ∀ ev ∈ body.events, ∃ j : Nat, pathIsUnder (p ++ [j]) (pathOf ev) = true)
    (hsort : body.events.Pairwise evLE) :
    (∀ ev ∈ (nodeR cut k p body).events, pathIsUnder p (pathOf ev) = true) ∧
      (nodeR cut k p body).events.Pairwise evLE := by
  have hu : ∀ ev ∈ body.events, pathIsUnder p (pathOf ev) = true := by
    intro ev hm
    obtain ⟨j, hj⟩ := hunder ev hm
    exact pathIsUnder_of_append p [j] _ hj
  have hle : ∀ ev ∈ body.events, evLE (.enter p) ev := by
    intro ev hm
    exact preLe_of_under p _ (hu ev hm)
  have hle2 : ∀ ev ∈ body.events, evLE (.visit p k) ev := by
    intro ev hm
    exact preLe_of_under p _ (hu ev hm)
  unfold nodeR
  split
  · constructor
    · intro ev hm
      rcases List.mem_cons.mp hm with rfl | hm
      · exact pathIsUnder_refl p
      · rcases List.mem_cons.mp hm with rfl | hm
        · exact pathIsUnder_refl p
        · simp at hm
    · refine List.Pairwise.cons ?_ (List.Pairwise.cons ?_ List.Pairwise.nil)
      · intro b hb
        rcases List.mem_singleton.mp hb with rfl
        exact preLe_refl p
      · intro b hb
        simp at hb
  · constructor
    · intro ev hm
      rcases List.mem_cons.mp hm with rfl | hm
      · exact pathIsUnder_refl p
      · rcases List.mem_cons.mp hm with rfl | hm
        · exact pathIsUnder_refl p
        · exact hu ev hm
    · refine List.Pairwise.cons ?_ (List.Pairwise.cons ?_ hsort)
      · intro b hb
        rcases List.mem_cons.mp hb with rfl | hb
        · exact preLe_refl p
        · exact hle b hb
      · intro b hb
        exact hle2 b hb

theorem trace_sorted :
    (∀ h : Handle, ∀ (p : Path) (cut : ASTNodeType → Bool),
      (∀ ev ∈ (runEntry cut h p).events, pathIsUnder p (pathOf ev) = true) ∧
        (runEntry cut h p).events.Pairwise evLE) ∧
    (∀ l : List Handle, ∀ (p : Path) (i : Nat) (cut : ASTNodeType → Bool),
      (∀ ev ∈ (runList cut l p i).events, ∃ j, i ≤ j ∧ pathIsUnder (p ++ [j]) (pathOf ev) = true) ∧
        (runList cut l p i).events.Pairwise evLE) := by
  refine Handle.myInduct _ _ ?_ ?_ ?_ ?_ ?_ ?_ ?_ ?_ ?_ ?_ ?_ ?_ ?_ ?_ ?_ ?_ ?_ ?_ ?_ ?_ ?_ ?_ ?_ ?_
  · intro p cut
    simp only [runEntry]
    constructor
    · intro ev hm
      rcases List.mem_singleton.mp hm with rfl
      exact pathIsUnder_refl p
    · exact List.pairwise_singleton _ _
  · intro code p cut
    simp only [runEntry]
    constructor
    · intro ev hm
      rcases List.mem_singleton.mp hm with rfl
      exact pathIsUnder_refl p
    · exact List.pairwise_singleton _ _
  · intro fs ihQ p cut
    simp only [runEntry]
    have hQ := ihQ p 0 cut
    exact sorted_node cut .Program p _
      (fun ev hm => by
        obtain ⟨j, _, hj⟩ := hQ.1 ev hm
        exact ⟨j, hj⟩) hQ.2
  · intro b ih p cut
    simp only [runEntry]
    have hb := ih (p ++ [0]) cut
    exact sorted_node cut .Function p _ (fun ev hm => ⟨0, hb.1 ev hm⟩) hb.2
  · intro ss ihQ p cut
    simp only [runEntry]
    have hQ := ihQ p 0 cut
    exact sorted_node cut .StmtSeq p _
      (fun ev hm => by
        obtain ⟨j, _, hj⟩ := hQ.1 ev hm
        exact ⟨j, hj⟩) hQ.2
  · intro p cut
    simp only [runEntry]
    exact sorted_node cut .Integer p doneR (fun ev hm => by simp [doneR] at hm)
      (by simp [doneR])
  · intro p cut
    simp only [runEntry]
    exact sorted_node cut .Var p doneR (fun ev hm => by simp [doneR] at hm)
      (by simp [doneR])
  · intro v e ihv ihe p cut
    simp only [runEntry]
    have hA := ihv (p ++ [0]) cut
    have hB := ihe (p ++ [1]) cut
    have hg := sorted_glue p 0 _ _ hA.1 hA.2
      (fun ev hm => ⟨1, by omega, hB.1 ev hm⟩) hB.2
    exact sorted_node cut .Assign p _
      (fun ev hm => by
        obtain ⟨j, _, hj⟩ := hg.1 ev hm
        exact ⟨j, hj⟩) hg.2
  · intro e ih p cut
    simp only [runEntry]
    have hb := ih (p ++ [0]) cut
    exact sorted_node cut .Invoke p _ (fun ev hm => ⟨0, hb.1 ev hm⟩) hb.2
  · intro c t e ihc iht ihe p cut
    simp only [runEntry]
    have hA := ihc (p ++ [0]) cut
    have hB := iht (p ++ [1]) cut
    have hC : (∀ ev ∈ (if e.isNull then doneR else runEntry cut e (p ++ [2])).events,
          pathIsUnder (p ++ [2]) (pathOf ev) = true) ∧
        (if e.isNull then doneR else runEntry cut e (p ++ [2])).events.Pairwise evLE := by
      by_cases hnl : e.isNull
      · simp [hnl, doneR]
      · simp only [hnl, if_false, Bool.false_eq_true]
        exact (ihe (p ++ [2]) cut)
    have hg1 := sorted_glue p 1 _ _ hB.1 hB.2
      (fun ev hm => ⟨2, by omega, hC.1 ev hm⟩) hC.2
    have hg0 := sorted_glue p 0 _ _ hA.1 hA.2
      (fun ev hm => by
        obtain ⟨j, hj1, hj2⟩ := hg1.1 ev hm
        exact ⟨j, by omega, hj2⟩) hg1.2
    exact sorted_node cut .IfThenElse p _
      (fun ev hm => by
        obtain ⟨j, _, hj⟩ := hg0.1 ev hm
        exact ⟨j, hj⟩) hg0.2
  · intro c b ihc ihb p cut
    simp only [runEntry]
    have hA := ihc (p ++ [0]) cut
    have hB := ihb (p ++ [1]) cut
    have hg := sorted_glue p 0 _ _ hA.1 hA.2
      (fun ev hm => ⟨1, by omega, hB.1 ev hm⟩) hB.2
    exact sorted_node cut .While p _
      (fun ev hm => by
        obtain ⟨j, _, hj⟩ := hg.1 ev hm
        exact ⟨j, hj⟩) hg.2
  · intro p cut
    simp only [runEntry]
    exact sorted_node cut .Call p doneR (fun ev hm => by simp [doneR] at hm)
      (by simp [doneR])
  · intro l r ihl ihr p cut
    simp only [runEntry]
    have hA := ihl (p ++ [0]) cut
    have hB := ihr (p ++ [1]) cut
    have hg := sorted_glue p 0 _ _ hA.1 hA.2
      (fun ev hm => ⟨1, by omega, hB.1 ev hm⟩) hB.2
    exact sorted_node cut .Add p _
      (fun ev hm => by
        obtain ⟨j, _, hj⟩ := hg.1 ev hm
        exact ⟨j, hj⟩) hg.2
  · intro l r ihl ihr p cut
    simp only [runEntry]
    have hA := ihl (p ++ [0]) cut
    have hB := ihr (p ++ [1]) cut
    have hg := sorted_glue p 0 _ _ hA.1 hA.2
      (fun ev hm => ⟨1, by omega, hB.1 ev hm⟩) hB.2
    exact sorted_node cut .Sub p _
      (fun ev hm => by
        obtain ⟨j, _, hj⟩ := hg.1 ev hm
        exact ⟨j, hj⟩) hg.2
  · intro l r ihl ihr p cut
    simp only [runEntry]
    have hA := ihl (p ++ [0]) cut
    have hB := ihr (p ++ [1]) cut
    have hg := sorted_glue p 0 _ _ hA.1 hA.2
      (fun ev hm => ⟨1, by omega, hB.1 ev hm⟩) hB.2
    exact sorted_node cut .Mul p _
      (fun ev hm => by
        obtain ⟨j, _, hj⟩ := hg.1 ev hm
        exact ⟨j, hj⟩) hg.2
  · intro l r ihl ihr p cut
    simp only [runEntry]
    have hA := ihl (p ++ [0]) cut
    have hB := ihr (p ++ [1]) cut
    have hg := sorted_glue p 0 _ _ hA.1 hA.2
      (fun ev hm => ⟨1, by omega, hB.1 ev hm⟩) hB.2
    exact sorted_node cut .Div p _
      (fun ev hm => by
        obtain ⟨j, _, hj⟩ := hg.1 ev hm
        exact ⟨j, hj⟩) hg.2
  · intro l r ihl ihr p cut
    simp only [runEntry]
    have hA := ihl (p ++ [0]) cut
    have hB := ihr (p ++ [1]) cut
    have hg := sorted_glue p 0 _ _ hA.1 hA.2
      (fun ev hm => ⟨1, by omega, hB.1 ev hm⟩) hB.2
    exact sorted_node cut .LT p _
      (fun ev hm => by
        obtain ⟨j, _, hj⟩ := hg.1 ev hm
        exact ⟨j, hj⟩) hg.2
  · intro l r ihl ihr p cut
    simp only [runEntry]
    have hA := ihl (p ++ [0]) cut
    have hB := ihr (p ++ [1]) cut
    have hg := sorted_glue p 0 _ _ hA.1 hA.2
      (fun ev hm => ⟨1, by omega, hB.1 ev hm⟩) hB.2
    exact sorted_node cut .LE p _
      (fun ev hm => by
        obtain ⟨j, _, hj⟩ := hg.1 ev hm
        exact ⟨j, hj⟩) hg.2
  · intro l r ihl ihr p cut
    simp only [runEntry]
    have hA := ihl (p ++ [0]) cut
    have hB := ihr (p ++ [1]) cut
    have hg := sorted_glue p 0 _ _ hA.1 hA.2
      (fun ev hm => ⟨1, by omega, hB.1 ev hm⟩) hB.2
    exact sorted_node cut .GT p _
      (fun ev hm => by
        obtain ⟨j, _, hj⟩ := hg.1 ev hm
        exact ⟨j, hj⟩) hg.2
  · intro l r ihl ihr p cut
    simp only [runEntry]
    have hA := ihl (p ++ [0]) cut
    have hB := ihr (p ++ [1]) cut
    have hg := sorted_glue p 0 _ _ hA.1 hA.2
      (fun ev hm => ⟨1, by omega, hB.1 ev hm⟩) hB.2
    exact sorted_node cut .GE p _
      (fun ev hm => by
        obtain ⟨j, _, hj⟩ := hg.1 ev hm
        exact ⟨j, hj⟩) hg.2
  · intro l r ihl ihr p cut
    simp only [runEntry]
    have hA := ihl (p ++ [0]) cut
    have hB := ihr (p ++ [1]) cut
    have hg := sorted_glue p 0 _ _ hA.1 hA.2
      (fun ev hm => ⟨1, by omega, hB.1 ev hm⟩) hB.2
    exact sorted_node cut .EQ p _
      (fun ev hm => by
        obtain ⟨j, _, hj⟩ := hg.1 ev hm
        exact ⟨j, hj⟩) hg.2
  · intro l r ihl ihr p cut
    simp only [runEntry]
    have hA := ihl (p ++ [0]) cut
    have hB := ihr (p ++ [1]) cut
    have hg := sorted_glue p 0 _ _ hA.1 hA.2
      (fun ev hm => ⟨1, by omega, hB.1 ev hm⟩) hB.2
    exact sorted_node cut .NE p _
      (fun ev hm => by
        obtain ⟨j, _, hj⟩ := hg.1 ev hm
        exact ⟨j, hj⟩) hg.2
  · intro p i cut
    simp [runList, doneR]
  · intro s ss ihs ihss p i cut
    simp only [runList]
    have hA := ihs (p ++ [i]) cut
    have hB := ihss p (i + 1) cut
    exact sorted_glue p i _ _ hA.1 hA.2
      (fun ev hm => by
        obtain ⟨j, hj1, hj2⟩ := hB.1 ev hm
        exact ⟨j, by omega, hj2⟩) hB.2

/-! ### Splitting an ordered list by two separated predicates -/

theorem filter_split {α : Type} (R : α → α → Prop) (P Q : α → Bool) (l : List α)
    (hp : l.Pairwise R)
    (hsep : ∀ a b, R a b → Q a = true → P b = true → False)
    (hdisj : ∀ a, P a = true → Q a = true → False) :
    l.filter (fun x => P x || Q x) = l.filter P ++ l.filter Q := by
  induction l with
  | nil => rfl
  | cons x t ih =>
    have hx : ∀ y ∈ t, R x y := fun y hy => List.rel_of_pairwise_cons hp hy
    have hpt : t.Pairwise R := List.Pairwise.of_cons hp
    by_cases hPx : P x = true
    · have hQx : Q x = false := by
        by_contra hc
        rw [Bool.not_eq_false] at hc
        exact hdisj x hPx hc
      rw [List.filter_cons_of_pos (by simp [hPx]), List.filter_cons_of_pos hPx,
        List.filter_cons_of_neg (by simp [hQx])]
      rw [List.cons_append]
      rw [ih hpt]
    · by_cases hQx : Q x = true
      · have hPt : ∀ y ∈ t, P y = false := by
          intro y hy
          by_contra hc
          rw [Bool.not_eq_false] at hc
          exact hsep x y (hx y hy) hQx hc
        have h1 : t.filter (fun z => P z || Q z) = t.filter Q := by
          apply List.filter_congr
          intro y hy
          simp [hPt y hy]
        have h2 : t.filter P = [] := by
          rw [List.filter_eq_nil_iff]
          intro y hy
          simp [hPt y hy]
        rw [List.filter_cons_of_pos (by simp [hQx]), List.filter_cons_of_neg (by simp [hPx]),
          List.filter_cons_of_pos hQx, h1, h2]
        rfl
      · rw [List.filter_cons_of_neg (by simp [hPx, hQx]), List.filter_cons_of_neg (by simp [hPx]),
          List.filter_cons_of_neg (by simp [hQx])]
        exact ih hpt

/-! ### Helpers for the cut-off analysis -/

theorem nodeR_events_cut (cut : ASTNodeType → Bool) (k : ASTNodeType) (p : Path)
    (body : WalkResult) (hck : cut k = true) :
    (nodeR cut k p body).events = [.enter p, .visit p k] := by
  simp [nodeR, hck]

theorem nodeR_events_nocut (cut : ASTNodeType → Bool) (k : ASTNodeType) (p : Path)
    (body : WalkResult) (hck : cut k = false) :
    (nodeR cut k p body).events = .enter p :: .visit p k :: body.events := by
  simp [nodeR, hck]

theorem nodup_fst_unique {l : List (Path × ASTNodeType)}
    (hnd : (l.map Prod.fst).Nodup) {a : Path} {b c : ASTNodeType}
    (hb : (a, b) ∈ l) (hc : (a, c) ∈ l) : b = c := by
  induction l with
  | nil => simp at hb
  | cons y t ih =>
    rw [List.map_cons, List.nodup_cons] at hnd
    rcases List.mem_cons.mp hb with hb1 | hb2
    · rcases List.mem_cons.mp hc with hc1 | hc2
      · rw [← hb1] at hc1
        injection hc1 with h1 h2
        exact h2.symm
      · exfalso
        apply hnd.1
        rw [← hb1]
        exact List.mem_map.mpr ⟨(a, c), hc2, rfl⟩
    · rcases List.mem_cons.mp hc with hc1 | hc2
      · exfalso
        apply hnd.1
        rw [← hc1]
        exact List.mem_map.mpr ⟨(a, b), hb2, rfl⟩
      · exact ih hnd.2 hb2 hc2

theorem child_inv (q p : Path) (j : Nat) (hpq : pathIsUnder q p = false) :
    pathIsUnder q (p ++ [j]) = false ∨ p ++ [j] = q := by
  by_cases hb : pathIsUnder q (p ++ [j]) = true
  · rcases pathIsUnder_snoc_split q p j hb with h1 | h2
    · right
      exact h1.symm
    · exact absurd h2 (by simp [hpq])
  · left
    simpa using hb

theorem cutcase_filter (p : Path) (k0 : ASTNodeType) (TAIL : List (Path × ASTNodeType))
    (htail : ∀ x ∈ TAIL, ∃ j : Nat, pathIsUnder (p ++ [j]) x.1 = true) :
    ((p, k0) :: TAIL).filter (fun x => !(properUnder p x.1)) = [(p, k0)] := by
  rw [List.filter_cons_of_pos (by simp [properUnder, pathIsUnder_refl])]
  have hnil : TAIL.filter (fun x => !(properUnder p x.1)) = [] := by
    rw [List.filter_eq_nil_iff]
    intro x hx
    obtain ⟨j, hj⟩ := htail x hx
    have h1 : pathIsUnder p x.1 = true := pathIsUnder_of_append p [j] x.1 hj
    have h2 : x.1 ≠ p := pathIsUnder_snoc_ne p j x.1 hj
    have h3 : (x.1 == p) = false := beq_eq_false_iff_ne.mpr h2
    simp [properUnder, h1, h3]
  rw [hnil]

/-! ### The walk of a pass that cuts one kind: handler invocations are
exactly the nodes that are not strict descendants of the cut node -/

theorem cut_filter (tglob : Handle) (q : Path) (k : ASTNodeType)
    (hq : (q, k) ∈ nodesE tglob [])
    (hnd : ((nodesE tglob []).map Prod.fst).Nodup)
    (honly : ∀ x ∈ nodesE tglob [], x.2 = k → pathIsUnder q x.1 = true) :
    (∀ h : Handle, ∀ p : Path, wfE h = true →
      (∀ x ∈ nodesE h p, x ∈ nodesE tglob []) →
      (pathIsUnder q p = false ∨ p = q) →
      visitsOf (runEntry (cutOnly k) h p).events
        = (nodesE h p).filter (fun x => !(properUnder q x.1))) ∧
    (∀ l : List Handle, ∀ (p : Path) (i : Nat), wfL l = true →
      (∀ x ∈ nodesL l p i, x ∈ nodesE tglob []) →
      pathIsUnder q p = false →
      visitsOf (runList (cutOnly k) l p i).events
        = (nodesL l p i).filter (fun x => !(properUnder q x.1))) := by
  refine Handle.myInduct _ _ ?_ ?_ ?_ ?_ ?_ ?_ ?_ ?_ ?_ ?_ ?_ ?_ ?_ ?_ ?_ ?_ ?_ ?_ ?_ ?_ ?_ ?_ ?_ ?_
  · intro p hwf hlift hthird
    simp [wfE] at hwf
  · intro code p hwf hlift hthird
    simp [wfE] at hwf
  · intro fs ihQ p hwf hlift hthird
    simp [wfE] at hwf
    by_cases hk : ASTNodeType.Program = k
    · subst hk
      have htail : ∀ x ∈ nodesL fs p 0, ∃ j : Nat, pathIsUnder (p ++ [j]) x.1 = true := by
        intro x hx
        obtain ⟨j, _, hj⟩ := (nodes_shape.2 fs p 0).1 x hx
        exact ⟨j, hj⟩
      have hmem : ((p, ASTNodeType.Program) : Path × ASTNodeType) ∈ nodesE (.program fs) p := by
        simp [nodesE]
      have hu := honly _ (hlift _ hmem) rfl
      have hpq : p = q := by
        rcases hthird with h | h
        · rw [hu] at h
          cases h
        · exact h
      subst hpq
      simp only [runEntry]
      rw [nodeR_events_cut _ _ _ _ (by simp [cutOnly])]
      simp only [nodesE]
      rw [cutcase_filter p _ _ htail]
      simp [visitsOf]
    · have hck : cutOnly k ASTNodeType.Program = false := by
        simp [cutOnly]
        exact hk
      have hmem : ((p, ASTNodeType.Program) : Path × ASTNodeType) ∈ nodesE (.program fs) p := by
        simp [nodesE]
      have hpq : pathIsUnder q p = false := by
        rcases hthird with h | h
        · exact h
        · exfalso
          subst h
          exact hk (nodup_fst_unique hnd (hlift _ hmem) hq)
      have liftQ : ∀ x ∈ nodesL fs p 0, x ∈ nodesE tglob [] := by
        intro x hx
        apply hlift
        simp only [nodesE, List.mem_cons]
        tauto
      have hQ := ihQ p 0 hwf liftQ hpq
      simp only [runEntry]
      rw [nodeR_events_nocut _ _ _ _ hck]
      simp only [nodesE]
      rw [List.filter_cons_of_pos (by simp [properUnder, hpq])]
      rw [visitsOf_cons_enter, visitsOf_cons_visit, hQ]
  · intro b ih p hwf hlift hthird
    simp [wfE] at hwf
    by_cases hk : ASTNodeType.Function = k
    · subst hk
      have htail : ∀ x ∈ nodesE b (p ++ [0]), ∃ j : Nat, pathIsUnder (p ++ [j]) x.1 = true := by
        intro x hx
        exact ⟨0, (nodes_shape.1 b (p ++ [0])).1 x hx⟩
      have hmem : ((p, ASTNodeType.Function) : Path × ASTNodeType) ∈ nodesE (.function b) p := by
        simp [nodesE]
      have hu := honly _ (hlift _ hmem) rfl
      have hpq : p = q := by
        rcases hthird with h | h
        · rw [hu] at h
          cases h
        · exact h
      subst hpq
      simp only [runEntry]
      rw [nodeR_events_cut _ _ _ _ (by simp [cutOnly])]
      simp only [nodesE]
      rw [cutcase_filter p _ _ htail]
      simp [visitsOf]
    · have hck : cutOnly k ASTNodeType.Function = false := by
        simp [cutOnly]
        exact hk
      have hmem : ((p, ASTNodeType.Function) : Path × ASTNodeType) ∈ nodesE (.function b) p := by
        simp [nodesE]
      have hpq : pathIsUnder q p = false := by
        rcases hthird with h | h
        · exact h
        · exfalso
          subst h
          exact hk (nodup_fst_unique hnd (hlift _ hmem) hq)
      have liftA : ∀ x ∈ nodesE b (p ++ [0]), x ∈ nodesE tglob [] := by
        intro x hx
        apply hlift
        simp only [nodesE, List.mem_cons]
        tauto
      have hA := ih (p ++ [0]) hwf liftA (child_inv q p 0 hpq)
      simp only [runEntry]
      rw [nodeR_events_nocut _ _ _ _ hck]
      simp only [nodesE]
      rw [List.filter_cons_of_pos (by simp [properUnder, hpq])]
      rw [visitsOf_cons_enter, visitsOf_cons_visit, hA]
  · intro ss ihQ p hwf hlift hthird
    simp [wfE] at hwf
    by_cases hk : ASTNodeType.StmtSeq = k
    · subst hk
      have htail : ∀ x ∈ nodesL ss p 0, ∃ j : Nat, pathIsUnder (p ++ [j]) x.1 = true := by
        intro x hx
        obtain ⟨j, _, hj⟩ := (nodes_shape.2 ss p 0).1 x hx
        exact ⟨j, hj⟩
      have hmem : ((p, ASTNodeType.StmtSeq) : Path × ASTNodeType) ∈ nodesE (.stmtSeq ss) p := by
        simp [nodesE]
      have hu := honly _ (hlift _ hmem) rfl
      have hpq : p = q := by
        rcases hthird with h | h
        · rw [hu] at h
          cases h
        · exact h
      subst hpq
      simp only [runEntry]
      rw [nodeR_events_cut _ _ _ _ (by simp [cutOnly])]
      simp only [nodesE]
      rw [cutcase_filter p _ _ htail]
      simp [visitsOf]
    · have hck : cutOnly k ASTNodeType.StmtSeq = false := by
        simp [cutOnly]
        exact hk
      have hmem : ((p, ASTNodeType.StmtSeq) : Path × ASTNodeType) ∈ nodesE (.stmtSeq ss) p := by
        simp [nodesE]
      have hpq : pathIsUnder q p = false := by
        rcases hthird with h | h
        · exact h
        · exfalso
          subst h
          exact hk (nodup_fst_unique hnd (hlift _ hmem) hq)
      have liftQ : ∀ x ∈ nodesL ss p 0, x ∈ nodesE tglob [] := by
        intro x hx
        apply hlift
        simp only [nodesE, List.mem_cons]
        tauto
      have hQ := ihQ p 0 hwf liftQ hpq
      simp only [runEntry]
      rw [nodeR_events_nocut _ _ _ _ hck]
      simp only [nodesE]
      rw [List.filter_cons_of_pos (by simp [properUnder, hpq])]
      rw [visitsOf_cons_enter, visitsOf_cons_visit, hQ]
  · intro p hwf hlift hthird
    by_cases hk : ASTNodeType.Integer = k
    · subst hk
      have hmem : ((p, ASTNodeType.Integer) : Path × ASTNodeType) ∈ nodesE .integer p := by
        simp [nodesE]
      have hu := honly _ (hlift _ hmem) rfl
      have hpq : p = q := by
        rcases hthird with h | h
        · rw [hu] at h
          cases h
        · exact h
      subst hpq
      simp only [runEntry]
      rw [nodeR_events_cut _ _ _ _ (by simp [cutOnly])]
      simp only [nodesE]
      rw [cutcase_filter p _ _ (by intro x hx; simp at hx)]
      simp [visitsOf]
    · have hck : cutOnly k ASTNodeType.Integer = false := by
        simp [cutOnly]
        exact hk
      have hmem : ((p, ASTNodeType.Integer) : Path × ASTNodeType) ∈ nodesE .integer p := by
        simp [nodesE]
      have hpq : pathIsUnder q p = false := by
        rcases hthird with h | h
        · exact h
        · exfalso
          subst h
          exact hk (nodup_fst_unique hnd (hlift _ hmem) hq)
      simp only [runEntry]
      rw [nodeR_events_nocut _ _ _ _ hck]
      simp only [nodesE]
      rw [List.filter_cons_of_pos (by simp [properUnder, hpq])]
      simp [visitsOf, doneR]
  · intro p hwf hlift hthird
    by_cases hk : ASTNodeType.Var = k
    · subst hk
      have hmem : ((p, ASTNodeType.Var) : Path × ASTNodeType) ∈ nodesE .var p := by
        simp [nodesE]
      have hu := honly _ (hlift _ hmem) rfl
      have hpq : p = q := by
        rcases hthird with h | h
        · rw [hu] at h
          cases h
        · exact h
      subst hpq
      simp only [runEntry]
      rw [nodeR_events_cut _ _ _ _ (by simp [cutOnly])]
      simp only [nodesE]
      rw [cutcase_filter p _ _ (by intro x hx; simp at hx)]
      simp [visitsOf]
    · have hck : cutOnly k ASTNodeType.Var = false := by
        simp [cutOnly]
        exact hk
      have hmem : ((p, ASTNodeType.Var) : Path × ASTNodeType) ∈ nodesE .var p := by
        simp [nodesE]
      have hpq : pathIsUnder q p = false := by
        rcases hthird with h | h
        · exact h
        · exfalso
          subst h
          exact hk (nodup_fst_unique hnd (hlift _ hmem) hq)
      simp only [runEntry]
      rw [nodeR_events_nocut _ _ _ _ hck]
      simp only [nodesE]
      rw [List.filter_cons_of_pos (by simp [properUnder, hpq])]
      simp [visitsOf, doneR]

  · intro v e ihv ihe p hwf hlift hthird
    simp [wfE] at hwf
    by_cases hk : ASTNodeType.Assign = k
    · subst hk
      have htail : ∀ x ∈ nodesE v (p ++ [0]) ++ nodesE e (p ++ [1]),
          ∃ j : Nat, pathIsUnder (p ++ [j]) x.1 = true := by
        intro x hx
        rcases List.mem_append.mp hx with hx | hx
        · exact ⟨0, (nodes_shape.1 v (p ++ [0])).1 x hx⟩
        · exact ⟨1, (nodes_shape.1 e (p ++ [1])).1 x hx⟩
      have hmem : ((p, ASTNodeType.Assign) : Path × ASTNodeType) ∈ nodesE (.assign v e) p := by
        simp [nodesE]
      have hu := honly _ (hlift _ hmem) rfl
      have hpq : p = q := by
        rcases hthird with h | h
        · rw [hu] at h
          cases h
        · exact h
      subst hpq
      simp only [runEntry]
      rw [nodeR_events_cut _ _ _ _ (by simp [cutOnly])]
      simp only [nodesE]
      rw [cutcase_filter p _ _ htail]
      simp [visitsOf]
    · have hck : cutOnly k ASTNodeType.Assign = false := by
        simp [cutOnly]
        exact hk
      have hmem : ((p, ASTNodeType.Assign) : Path × ASTNodeType) ∈ nodesE (.assign v e) p := by
        simp [nodesE]
      have hpq : pathIsUnder q p = false := by
        rcases hthird with h | h
        · exact h
        · exfalso
          subst h
          exact hk (nodup_fst_unique hnd (hlift _ hmem) hq)
      have liftA : ∀ x ∈ nodesE v (p ++ [0]), x ∈ nodesE tglob [] := by
        intro x hx
        apply hlift
        simp only [nodesE, List.mem_cons, List.mem_append]
        tauto
      have liftB : ∀ x ∈ nodesE e (p ++ [1]), x ∈ nodesE tglob [] := by
        intro x hx
        apply hlift
        simp only [nodesE, List.mem_cons, List.mem_append]
        tauto
      have herrA := wf_no_err.1 v (p ++ [0]) (cutOnly k) hwf.1
      have hA := ihv (p ++ [0]) hwf.1 liftA (child_inv q p 0 hpq)
      have hB := ihe (p ++ [1]) hwf.2 liftB (child_inv q p 1 hpq)
      simp only [runEntry]
      rw [nodeR_events_nocut _ _ _ _ hck]
      rw [seqR_events _ _ herrA]
      simp only [nodesE]
      rw [List.filter_cons_of_pos (by simp [properUnder, hpq]), List.filter_append]
      rw [visitsOf_cons_enter, visitsOf_cons_visit, visitsOf_append, hA, hB]
  · intro e ih p hwf hlift hthird
    simp [wfE] at hwf
    by_cases hk : ASTNodeType.Invoke = k
    · subst hk
      have htail : ∀ x ∈ nodesE e (p ++ [0]), ∃ j : Nat, pathIsUnder (p ++ [j]) x.1 = true := by
        intro x hx
        exact ⟨0, (nodes_shape.1 e (p ++ [0])).1 x hx⟩
      have hmem : ((p, ASTNodeType.Invoke) : Path × ASTNodeType) ∈ nodesE (.invoke e) p := by
        simp [nodesE]
      have hu := honly _ (hlift _ hmem) rfl
      have hpq : p = q := by
        rcases hthird with h | h
        · rw [hu] at h
          cases h
        · exact h
      subst hpq
      simp only [runEntry]
      rw [nodeR_events_cut _ _ _ _ (by simp [cutOnly])]
      simp only [nodesE]
      rw [cutcase_filter p _ _ htail]
      simp [visitsOf]
    · have hck : cutOnly k ASTNodeType.Invoke = false := by
        simp [cutOnly]
        exact hk
      have hmem : ((p, ASTNodeType.Invoke) : Path × ASTNodeType) ∈ nodesE (.invoke e) p := by
        simp [nodesE]
      have hpq : pathIsUnder q p = false := by
        rcases hthird with h | h
        · exact h
        · exfalso
          subst h
          exact hk (nodup_fst_unique hnd (hlift _ hmem) hq)
      have liftA : ∀ x ∈ nodesE e (p ++ [0]), x ∈ nodesE tglob [] := by
        intro x hx
        apply hlift
        simp only [nodesE, List.mem_cons]
        tauto
      have hA := ih (p ++ [0]) hwf liftA (child_inv q p 0 hpq)
      simp only [runEntry]
      rw [nodeR_events_nocut _ _ _ _ hck]
      simp only [nodesE]
      rw [List.filter_cons_of_pos (by simp [properUnder, hpq])]
      rw [visitsOf_cons_enter, visitsOf_cons_visit, hA]
  · intro c t e ihc iht ihe p hwf hlift hthird
    simp [wfE] at hwf
    by_cases hk : ASTNodeType.IfThenElse = k
    · subst hk
      have htail : ∀ x ∈ nodesE c (p ++ [0]) ++ nodesE t (p ++ [1]) ++
          (if e.isNull then [] else nodesE e (p ++ [2])),
          ∃ j : Nat, pathIsUnder (p ++ [j]) x.1 = true := by
        intro x hx
        rcases List.mem_append.mp hx with hx | hx
        · rcases List.mem_append.mp hx with hx | hx
          · exact ⟨0, (nodes_shape.1 c (p ++ [0])).1 x hx⟩
          · exact ⟨1, (nodes_shape.1 t (p ++ [1])).1 x hx⟩
        · by_cases hnl : e.isNull
          · rw [if_pos hnl] at hx
            simp at hx
          · rw [if_neg hnl] at hx
            exact ⟨2, (nodes_shape.1 e (p ++ [2])).1 x hx⟩
      have hmem : ((p, ASTNodeType.IfThenElse) : Path × ASTNodeType) ∈ nodesE (.ifThenElse c t e) p := by
        simp [nodesE]
      have hu := honly _ (hlift _ hmem) rfl
      have hpq : p = q := by
        rcases hthird with h | h
        · rw [hu] at h
          cases h
        · exact h
      subst hpq
      simp only [runEntry]
      rw [nodeR_events_cut _ _ _ _ (by simp [cutOnly])]
      simp only [nodesE]
      rw [cutcase_filter p _ _ htail]
      simp [visitsOf]
    · have hck : cutOnly k ASTNodeType.IfThenElse = false := by
        simp [cutOnly]
        exact hk
      have hmem : ((p, ASTNodeType.IfThenElse) : Path × ASTNodeType) ∈ nodesE (.ifThenElse c t e) p := by
        simp [nodesE]
      have hpq : pathIsUnder q p = false := by
        rcases hthird with h | h
        · exact h
        · exfalso
          subst h
          exact hk (nodup_fst_unique hnd (hlift _ hmem) hq)
      have liftA : ∀ x ∈ nodesE c (p ++ [0]), x ∈ nodesE tglob [] := by
        intro x hx
        apply hlift
        simp only [nodesE, List.mem_cons, List.mem_append]
        tauto
      have liftB : ∀ x ∈ nodesE t (p ++ [1]), x ∈ nodesE tglob [] := by
        intro x hx
        apply hlift
        simp only [nodesE, List.mem_cons, List.mem_append]
        tauto
      have herrA := wf_no_err.1 c (p ++ [0]) (cutOnly k) hwf.1.1
      have herrB := wf_no_err.1 t (p ++ [1]) (cutOnly k) hwf.1.2
      have hA := ihc (p ++ [0]) hwf.1.1 liftA (child_inv q p 0 hpq)
      have hB := iht (p ++ [1]) hwf.1.2 liftB (child_inv q p 1 hpq)
      by_cases hnl : e.isNull
      · simp only [runEntry]
        rw [nodeR_events_nocut _ _ _ _ hck]
        rw [if_pos hnl]
        rw [seqR_events _ _ herrA, seqR_events _ _ herrB]
        simp only [nodesE]
        rw [if_pos hnl, List.append_nil]
        rw [List.filter_cons_of_pos (by simp [properUnder, hpq]), List.filter_append]
        rw [visitsOf_cons_enter, visitsOf_cons_visit, visitsOf_append, visitsOf_append, hA, hB]
        simp [visitsOf, doneR]
      · have hwfe : wfE e = true := by
          rcases hwf.2 with h | h
          · exact absurd h hnl
          · exact h
        have liftC : ∀ x ∈ nodesE e (p ++ [2]), x ∈ nodesE tglob [] := by
          intro x hx
          apply hlift
          simp only [nodesE, List.mem_cons, List.mem_append]
          rw [if_neg hnl]
          tauto
        have hC := ihe (p ++ [2]) hwfe liftC (child_inv q p 2 hpq)
        simp only [runEntry]
        rw [nodeR_events_nocut _ _ _ _ hck]
        rw [if_neg hnl]
        rw [seqR_events _ _ herrA, seqR_events _ _ herrB]
        simp only [nodesE]
        rw [if_neg hnl]
        rw [List.filter_cons_of_pos (by simp [properUnder, hpq]), List.filter_append, List.filter_append]
        rw [visitsOf_cons_enter, visitsOf_cons_visit, visitsOf_append, visitsOf_append, hA, hB, hC]
        simp [List.append_assoc]
  · intro c b ihc ihb p hwf hlift hthird
    simp [wfE] at hwf
    by_cases hk : ASTNodeType.While = k
    · subst hk
      have htail : ∀ x ∈ nodesE c (p ++ [0]) ++ nodesE b (p ++ [1]),
          ∃ j : Nat, pathIsUnder (p ++ [j]) x.1 = true := by
        intro x hx
        rcases List.mem_append.mp hx with hx | hx
        · exact ⟨0, (nodes_shape.1 c (p ++ [0])).1 x hx⟩
        · exact ⟨1, (nodes_shape.1 b (p ++ [1])).1 x hx⟩
      have hmem : ((p, ASTNodeType.While) : Path × ASTNodeType) ∈ nodesE (.whileLoop c b) p := by
        simp [nodesE]
      have hu := honly _ (hlift _ hmem) rfl
      have hpq : p = q := by
        rcases hthird with h | h
        · rw [hu] at h
          cases h
        · exact h
      subst hpq
      simp only [runEntry]
      rw [nodeR_events_cut _ _ _ _ (by simp [cutOnly])]
      simp only [nodesE]
      rw [cutcase_filter p _ _ htail]
      simp [visitsOf]
    · have hck : cutOnly k ASTNodeType.While = false := by
        simp [cutOnly]
        exact hk
      have hmem : ((p, ASTNodeType.While) : Path × ASTNodeType) ∈ nodesE (.whileLoop c b) p := by
        simp [nodesE]
      have hpq : pathIsUnder q p = false := by
        rcases hthird with h | h
        · exact h
        · exfalso
          subst h
          exact hk (nodup_fst_unique hnd (hlift _ hmem) hq)
      have liftA : ∀ x ∈ nodesE c (p ++ [0]), x ∈ nodesE tglob [] := by
        intro x hx
        apply hlift
        simp only [nodesE, List.mem_cons, List.mem_append]
        tauto
      have liftB : ∀ x ∈ nodesE b (p ++ [1]), x ∈ nodesE tglob [] := by
        intro x hx
        apply hlift
        simp only [nodesE, List.mem_cons, List.mem_append]
        tauto
      have herrA := wf_no_err.1 c (p ++ [0]) (cutOnly k) hwf.1
      have hA := ihc (p ++ [0]) hwf.1 liftA (child_inv q p 0 hpq)
      have hB := ihb (p ++ [1]) hwf.2 liftB (child_inv q p 1 hpq)
      simp only [runEntry]
      rw [nodeR_events_nocut _ _ _ _ hck]
      rw [seqR_events _ _ herrA]
      simp only [nodesE]
      rw [List.filter_cons_of_pos (by simp [properUnder, hpq]), List.filter_append]
      rw [visitsOf_cons_enter, visitsOf_cons_visit, visitsOf_append, hA, hB]
  · intro p hwf hlift hthird
    by_cases hk : ASTNodeType.Call = k
    · subst hk
      have hmem : ((p, ASTNodeType.Call) : Path × ASTNodeType) ∈ nodesE .call p := by
        simp [nodesE]
      have hu := honly _ (hlift _ hmem) rfl
      have hpq : p = q := by
        rcases hthird with h | h
        · rw [hu] at h
          cases h
        · exact h
      subst hpq
      simp only [runEntry]
      rw [nodeR_events_cut _ _ _ _ (by simp [cutOnly])]
      simp only [nodesE]
      rw [cutcase_filter p _ _ (by intro x hx; simp at hx)]
      simp [visitsOf]
    · have hck : cutOnly k ASTNodeType.Call = false := by
        simp [cutOnly]
        exact hk
      have hmem : ((p, ASTNodeType.Call) : Path × ASTNodeType) ∈ nodesE .call p := by
        simp [nodesE]
      have hpq : pathIsUnder q p = false := by
        rcases hthird with h | h
        · exact h
        · exfalso
          subst h
          exact hk (nodup_fst_unique hnd (hlift _ hmem) hq)
      simp only [runEntry]
      rw [nodeR_events_nocut _ _ _ _ hck]
      simp only [nodesE]
      rw [List.filter_cons_of_pos (by simp [properUnder, hpq])]
      simp [visitsOf, doneR]
  · intro l r ihl ihr p hwf hlift hthird
    simp [wfE] at hwf
    by_cases hk : ASTNodeType.Add = k
    · subst hk
      have htail : ∀ x ∈ nodesE l (p ++ [0]) ++ nodesE r (p ++ [1]),
          ∃ j : Nat, pathIsUnder (p ++ [j]) x.1 = true := by
        intro x hx
        rcases List.mem_append.mp hx with hx | hx
        · exact ⟨0, (nodes_shape.1 l (p ++ [0])).1 x hx⟩
        · exact ⟨1, (nodes_shape.1 r (p ++ [1])).1 x hx⟩
      have hmem : ((p, ASTNodeType.Add) : Path × ASTNodeType) ∈ nodesE (.add l r) p := by
        simp [nodesE]
      have hu := honly _ (hlift _ hmem) rfl
      have hpq : p = q := by
        rcases hthird with h | h
        · rw [hu] at h
          cases h
        · exact h
      subst hpq
      simp only [runEntry]
      rw [nodeR_events_cut _ _ _ _ (by simp [cutOnly])]
      simp only [nodesE]
      rw [cutcase_filter p _ _ htail]
      simp [visitsOf]
    · have hck : cutOnly k ASTNodeType.Add = false := by
        simp [cutOnly]
        exact hk
      have hmem : ((p, ASTNodeType.Add) : Path × ASTNodeType) ∈ nodesE (.add l r) p := by
        simp [nodesE]
      have hpq : pathIsUnder q p = false := by
        rcases hthird with h | h
        · exact h
        · exfalso
          subst h
          exact hk (nodup_fst_unique hnd (hlift _ hmem) hq)
      have liftA : ∀ x ∈ nodesE l (p ++ [0]), x ∈ nodesE tglob [] := by
        intro x hx
        apply hlift
        simp only [nodesE, List.mem_cons, List.mem_append]
        tauto
      have liftB : ∀ x ∈ nodesE r (p ++ [1]), x ∈ nodesE tglob [] := by
        intro x hx
        apply hlift
        simp only [nodesE, List.mem_cons, List.mem_append]
        tauto
      have herrA := wf_no_err.1 l (p ++ [0]) (cutOnly k) hwf.1
      have hA := ihl (p ++ [0]) hwf.1 liftA (child_inv q p 0 hpq)
      have hB := ihr (p ++ [1]) hwf.2 liftB (child_inv q p 1 hpq)
      simp only [runEntry]
      rw [nodeR_events_nocut _ _ _ _ hck]
      rw [seqR_events _ _ herrA]
      simp only [nodesE]
      rw [List.filter_cons_of_pos (by simp [properUnder, hpq]), List.filter_append]
      rw [visitsOf_cons_enter, visitsOf_cons_visit, visitsOf_append, hA, hB]
  · intro l r ihl ihr p hwf hlift hthird
    simp [wfE] at hwf
    by_cases hk : ASTNodeType.Sub = k
    · subst hk
      have htail : ∀ x ∈ nodesE l (p ++ [0]) ++ nodesE r (p ++ [1]),
          ∃ j : Nat, pathIsUnder (p ++ [j]) x.1 = true := by
        intro x hx
        rcases List.mem_append.mp hx with hx | hx
        · exact ⟨0, (nodes_shape.1 l (p ++ [0])).1 x hx⟩
        · exact ⟨1, (nodes_shape.1 r (p ++ [1])).1 x hx⟩
      have hmem : ((p, ASTNodeType.Sub) : Path × ASTNodeType) ∈ nodesE (.sub l r) p := by
        simp [nodesE]
      have hu := honly _ (hlift _ hmem) rfl
      have hpq : p = q := by
        rcases hthird with h | h
        · rw [hu] at h
          cases h
        · exact h
      subst hpq
      simp only [runEntry]
      rw [nodeR_events_cut _ _ _ _ (by simp [cutOnly])]
      simp only [nodesE]
      rw [cutcase_filter p _ _ htail]
      simp [visitsOf]
    · have hck : cutOnly k ASTNodeType.Sub = false := by
        simp [cutOnly]
        exact hk
      have hmem : ((p, ASTNodeType.Sub) : Path × ASTNodeType) ∈ nodesE (.sub l r) p := by
        simp [nodesE]
      have hpq : pathIsUnder q p = false := by
        rcases hthird with h | h
        · exact h
        · exfalso
          subst h
          exact hk (nodup_fst_unique hnd (hlift _ hmem) hq)
      have liftA : ∀ x ∈ nodesE l (p ++ [0]), x ∈ nodesE tglob [] := by
        intro x hx
        apply hlift
        simp only [nodesE, List.mem_cons, List.mem_append]
        tauto
      have liftB : ∀ x ∈ nodesE r (p ++ [1]), x ∈ nodesE tglob [] := by
        intro x hx
        apply hlift
        simp only [nodesE, List.mem_cons, List.mem_append]
        tauto
      have herrA := wf_no_err.1 l (p ++ [0]) (cutOnly k) hwf.1
      have hA := ihl (p ++ [0]) hwf.1 liftA (child_inv q p 0 hpq)
      have hB := ihr (p ++ [1]) hwf.2 liftB (child_inv q p 1 hpq)
      simp only [runEntry]
      rw [nodeR_events_nocut _ _ _ _ hck]
      rw [seqR_events _ _ herrA]
      simp only [nodesE]
      rw [List.filter_cons_of_pos (by simp [properUnder, hpq]), List.filter_append]
      rw [visitsOf_cons_enter, visitsOf_cons_visit, visitsOf_append, hA, hB]
  · intro l r ihl ihr p hwf hlift hthird
    simp [wfE] at hwf
    by_cases hk : ASTNodeType.Mul = k
    · subst hk
      have htail : ∀ x ∈ nodesE l (p ++ [0]) ++ nodesE r (p ++ [1]),
          ∃ j : Nat, pathIsUnder (p ++ [j]) x.1 = true := by
        intro x hx
        rcases List.mem_append.mp hx with hx | hx
        · exact ⟨0, (nodes_shape.1 l (p ++ [0])).1 x hx⟩
        · exact ⟨1, (nodes_shape.1 r (p ++ [1])).1 x hx⟩
      have hmem : ((p, ASTNodeType.Mul) : Path × ASTNodeType) ∈ nodesE (.mul l r) p := by
        simp [nodesE]
      have hu := honly _ (hlift _ hmem) rfl
      have hpq : p = q := by
        rcases hthird with h | h
        · rw [hu] at h
          cases h
        · exact h
      subst hpq
      simp only [runEntry]
      rw [nodeR_events_cut _ _ _ _ (by simp [cutOnly])]
      simp only [nodesE]
      rw [cutcase_filter p _ _ htail]
      simp [visitsOf]
    · have hck : cutOnly k ASTNodeType.Mul = false := by
        simp [cutOnly]
        exact hk
      have hmem : ((p, ASTNodeType.Mul) : Path × ASTNodeType) ∈ nodesE (.mul l r) p := by
        simp [nodesE]
      have hpq : pathIsUnder q p = false := by
        rcases hthird with h | h
        · exact h
        · exfalso
          subst h
          exact hk (nodup_fst_unique hnd (hlift _ hmem) hq)
      have liftA : ∀ x ∈ nodesE l (p ++ [0]), x ∈ nodesE tglob [] := by
        intro x hx
        apply hlift
        simp only [nodesE, List.mem_cons, List.mem_append]
        tauto
      have liftB : ∀ x ∈ nodesE r (p ++ [1]), x ∈ nodesE tglob [] := by
        intro x hx
        apply hlift
        simp only [nodesE, List.mem_cons, List.mem_append]
        tauto
      have herrA := wf_no_err.1 l (p ++ [0]) (cutOnly k) hwf.1
      have hA := ihl (p ++ [0]) hwf.1 liftA (child_inv q p 0 hpq)
      have hB := ihr (p ++ [1]) hwf.2 liftB (child_inv q p 1 hpq)
      simp only [runEntry]
      rw [nodeR_events_nocut _ _ _ _ hck]
      rw [seqR_events _ _ herrA]
      simp only [nodesE]
      rw [List.filter_cons_of_pos (by simp [properUnder, hpq]), List.filter_append]
      rw [visitsOf_cons_enter, visitsOf_cons_visit, visitsOf_append, hA, hB]
  · intro l r ihl ihr p hwf hlift hthird
    simp [wfE] at hwf
    by_cases hk : ASTNodeType.Div = k
    · subst hk
      have htail : ∀ x ∈ nodesE l (p ++ [0]) ++ nodesE r (p ++ [1]),
          ∃ j : Nat, pathIsUnder (p ++ [j]) x.1 = true := by
        intro x hx
        rcases List.mem_append.mp hx with hx | hx
        · exact ⟨0, (nodes_shape.1 l (p ++ [0])).1 x hx⟩
        · exact ⟨1, (nodes_shape.1 r (p ++ [1])).1 x hx⟩
      have hmem : ((p, ASTNodeType.Div) : Path × ASTNodeType) ∈ nodesE (.div l r) p := by
        simp [nodesE]
      have hu := honly _ (hlift _ hmem) rfl
      have hpq : p = q := by
        rcases hthird with h | h
        · rw [hu] at h
          cases h
        · exact h
      subst hpq
      simp only [runEntry]
      rw [nodeR_events_cut _ _ _ _ (by simp [cutOnly])]
      simp only [nodesE]
      rw [cutcase_filter p _ _ htail]
      simp [visitsOf]
    · have hck : cutOnly k ASTNodeType.Div = false := by
        simp [cutOnly]
        exact hk
      have hmem : ((p, ASTNodeType.Div) : Path × ASTNodeType) ∈ nodesE (.div l r) p := by
        simp [nodesE]
      have hpq : pathIsUnder q p = false := by
        rcases hthird with h | h
        · exact h
        · exfalso
          subst h
          exact hk (nodup_fst_unique hnd (hlift _ hmem) hq)
      have liftA : ∀ x ∈ nodesE l (p ++ [0]), x ∈ nodesE tglob [] := by
        intro x hx
        apply hlift
        simp only [nodesE, List.mem_cons, List.mem_append]
        tauto
      have liftB : ∀ x ∈ nodesE r (p ++ [1]), x ∈ nodesE tglob [] := by
        intro x hx
        apply hlift
        simp only [nodesE, List.mem_cons, List.mem_append]
        tauto
      have herrA := wf_no_err.1 l (p ++ [0]) (cutOnly k) hwf.1
      have hA := ihl (p ++ [0]) hwf.1 liftA (child_inv q p 0 hpq)
      have hB := ihr (p ++ [1]) hwf.2 liftB (child_inv q p 1 hpq)
      simp only [runEntry]
      rw [nodeR_events_nocut _ _ _ _ hck]
      rw [seqR_events _ _ herrA]
      simp only [nodesE]
      rw [List.filter_cons_of_pos (by simp [properUnder, hpq]), List.filter_append]
      rw [visitsOf_cons_enter, visitsOf_cons_visit, visitsOf_append, hA, hB]
  · intro l r ihl ihr p hwf hlift hthird
    simp [wfE] at hwf
    by_cases hk : ASTNodeType.LT = k
    · subst hk
      have htail : ∀ x ∈ nodesE l (p ++ [0]) ++ nodesE r (p ++ [1]),
          ∃ j : Nat, pathIsUnder (p ++ [j]) x.1 = true := by
        intro x hx
        rcases List.mem_append.mp hx with hx | hx
        · exact ⟨0, (nodes_shape.1 l (p ++ [0])).1 x hx⟩
        · exact ⟨1, (nodes_shape.1 r (p ++ [1])).1 x hx⟩
      have hmem : ((p, ASTNodeType.LT) : Path × ASTNodeType) ∈ nodesE (.lt l r) p := by
        simp [nodesE]
      have hu := honly _ (hlift _ hmem) rfl
      have hpq : p = q := by
        rcases hthird with h | h
        · rw [hu] at h
          cases h
        · exact h
      subst hpq
      simp only [runEntry]
      rw [nodeR_events_cut _ _ _ _ (by simp [cutOnly])]
      simp only [nodesE]
      rw [cutcase_filter p _ _ htail]
      simp [visitsOf]
    · have hck : cutOnly k ASTNodeType.LT = false := by
        simp [cutOnly]
        exact hk
      have hmem : ((p, ASTNodeType.LT) : Path × ASTNodeType) ∈ nodesE (.lt l r) p := by
        simp [nodesE]
      have hpq : pathIsUnder q p = false := by
        rcases hthird with h | h
        · exact h
        · exfalso
          subst h
          exact hk (nodup_fst_unique hnd (hlift _ hmem) hq)
      have liftA : ∀ x ∈ nodesE l (p ++ [0]), x ∈ nodesE tglob [] := by
        intro x hx
        apply hlift
        simp only [nodesE, List.mem_cons, List.mem_append]
        tauto
      have liftB : ∀ x ∈ nodesE r (p ++ [1]), x ∈ nodesE tglob [] := by
        intro x hx
        apply hlift
        simp only [nodesE, List.mem_cons, List.mem_append]
        tauto
      have herrA := wf_no_err.1 l (p ++ [0]) (cutOnly k) hwf.1
      have hA := ihl (p ++ [0]) hwf.1 liftA (child_inv q p 0 hpq)
      have hB := ihr (p ++ [1]) hwf.2 liftB (child_inv q p 1 hpq)
      simp only [runEntry]
      rw [nodeR_events_nocut _ _ _ _ hck]
      rw [seqR_events _ _ herrA]
      simp only [nodesE]
      rw [List.filter_cons_of_pos (by simp [properUnder, hpq]), List.filter_append]
      rw [visitsOf_cons_enter, visitsOf_cons_visit, visitsOf_append, hA, hB]
  · intro l r ihl ihr p hwf hlift hthird
    simp [wfE] at hwf
    by_cases hk : ASTNodeType.LE = k
    · subst hk
      have htail : ∀ x ∈ nodesE l (p ++ [0]) ++ nodesE r (p ++ [1]),
          ∃ j : Nat, pathIsUnder (p ++ [j]) x.1 = true := by
        intro x hx
        rcases List.mem_append.mp hx with hx | hx
        · exact ⟨0, (nodes_shape.1 l (p ++ [0])).1 x hx⟩
        · exact ⟨1, (nodes_shape.1 r (p ++ [1])).1 x hx⟩
      have hmem : ((p, ASTNodeType.LE) : Path × ASTNodeType) ∈ nodesE (.le l r) p := by
        simp [nodesE]
      have hu := honly _ (hlift _ hmem) rfl
      have hpq : p = q := by
        rcases hthird with h | h
        · rw [hu] at h
          cases h
        · exact h
      subst hpq
      simp only [runEntry]
      rw [nodeR_events_cut _ _ _ _ (by simp [cutOnly])]
      simp only [nodesE]
      rw [cutcase_filter p _ _ htail]
      simp [visitsOf]
    · have hck : cutOnly k ASTNodeType.LE = false := by
        simp [cutOnly]
        exact hk
      have hmem : ((p, ASTNodeType.LE) : Path × ASTNodeType) ∈ nodesE (.le l r) p := by
        simp [nodesE]
      have hpq : pathIsUnder q p = false := by
        rcases hthird with h | h
        · exact h
        · exfalso
          subst h
          exact hk (nodup_fst_unique hnd (hlift _ hmem) hq)
      have liftA : ∀ x ∈ nodesE l (p ++ [0]), x ∈ nodesE tglob [] := by
        intro x hx
        apply hlift
        simp only [nodesE, List.mem_cons, List.mem_append]
        tauto
      have liftB : ∀ x ∈ nodesE r (p ++ [1]), x ∈ nodesE tglob [] := by
        intro x hx
        apply hlift
        simp only [nodesE, List.mem_cons, List.mem_append]
        tauto
      have herrA := wf_no_err.1 l (p ++ [0]) (cutOnly k) hwf.1
      have hA := ihl (p ++ [0]) hwf.1 liftA (child_inv q p 0 hpq)
      have hB := ihr (p ++ [1]) hwf.2 liftB (child_inv q p 1 hpq)
      simp only [runEntry]
      rw [nodeR_events_nocut _ _ _ _ hck]
      rw [seqR_events _ _ herrA]
      simp only [nodesE]
      rw [List.filter_cons_of_pos (by simp [properUnder, hpq]), List.filter_append]
      rw [visitsOf_cons_enter, visitsOf_cons_visit, visitsOf_append, hA, hB]
  · intro l r ihl ihr p hwf hlift hthird
    simp [wfE] at hwf
    by_cases hk : ASTNodeType.GT = k
    · subst hk
      have htail : ∀ x ∈ nodesE l (p ++ [0]) ++ nodesE r (p ++ [1]),
          ∃ j : Nat, pathIsUnder (p ++ [j]) x.1 = true := by
        intro x hx
        rcases List.mem_append.mp hx with hx | hx
        · exact ⟨0, (nodes_shape.1 l (p ++ [0])).1 x hx⟩
        · exact ⟨1, (nodes_shape.1 r (p ++ [1])).1 x hx⟩
      have hmem : ((p, ASTNodeType.GT) : Path × ASTNodeType) ∈ nodesE (.gt l r) p := by
        simp [nodesE]
      have hu := honly _ (hlift _ hmem) rfl
      have hpq : p = q := by
        rcases hthird with h | h
        · rw [hu] at h
          cases h
        · exact h
      subst hpq
      simp only [runEntry]
      rw [nodeR_events_cut _ _ _ _ (by simp [cutOnly])]
      simp only [nodesE]
      rw [cutcase_filter p _ _ htail]
      simp [visitsOf]
    · have hck : cutOnly k ASTNodeType.GT = false := by
        simp [cutOnly]
        exact hk
      have hmem : ((p, ASTNodeType.GT) : Path × ASTNodeType) ∈ nodesE (.gt l r) p := by
        simp [nodesE]
      have hpq : pathIsUnder q p = false := by
        rcases hthird with h | h
        · exact h
        · exfalso
          subst h
          exact hk (nodup_fst_unique hnd (hlift _ hmem) hq)
      have liftA : ∀ x ∈ nodesE l (p ++ [0]), x ∈ nodesE tglob [] := by
        intro x hx
        apply hlift
        simp only [nodesE, List.mem_cons, List.mem_append]
        tauto
      have liftB : ∀ x ∈ nodesE r (p ++ [1]), x ∈ nodesE tglob [] := by
        intro x hx
        apply hlift
        simp only [nodesE, List.mem_cons, List.mem_append]
        tauto
      have herrA := wf_no_err.1 l (p ++ [0]) (cutOnly k) hwf.1
      have hA := ihl (p ++ [0]) hwf.1 liftA (child_inv q p 0 hpq)
      have hB := ihr (p ++ [1]) hwf.2 liftB (child_inv q p 1 hpq)
      simp only [runEntry]
      rw [nodeR_events_nocut _ _ _ _ hck]
      rw [seqR_events _ _ herrA]
      simp only [nodesE]
      rw [List.filter_cons_of_pos (by simp [properUnder, hpq]), List.filter_append]
      rw [visitsOf_cons_enter, visitsOf_cons_visit, visitsOf_append, hA, hB]
  · intro l r ihl ihr p hwf hlift hthird
    simp [wfE] at hwf
    by_cases hk : ASTNodeType.GE = k
    · subst hk
      have htail : ∀ x ∈ nodesE l (p ++ [0]) ++ nodesE r (p ++ [1]),
          ∃ j : Nat, pathIsUnder (p ++ [j]) x.1 = true := by
        intro x hx
        rcases List.mem_append.mp hx with hx | hx
        · exact ⟨0, (nodes_shape.1 l (p ++ [0])).1 x hx⟩
        · exact ⟨1, (nodes_shape.1 r (p ++ [1])).1 x hx⟩
      have hmem : ((p, ASTNodeType.GE) : Path × ASTNodeType) ∈ nodesE (.ge l r) p := by
        simp [nodesE]
      have hu := honly _ (hlift _ hmem) rfl
      have hpq : p = q := by
        rcases hthird with h | h
        · rw [hu] at h
          cases h
        · exact h
      subst hpq
      simp only [runEntry]
      rw [nodeR_events_cut _ _ _ _ (by simp [cutOnly])]
      simp only [nodesE]
      rw [cutcase_filter p _ _ htail]
      simp [visitsOf]
    · have hck : cutOnly k ASTNodeType.GE = false := by
        simp [cutOnly]
        exact hk
      have hmem : ((p, ASTNodeType.GE) : Path × ASTNodeType) ∈ nodesE (.ge l r) p := by
        simp [nodesE]
      have hpq : pathIsUnder q p = false := by
        rcases hthird with h | h
        · exact h
        · exfalso
          subst h
          exact hk (nodup_fst_unique hnd (hlift _ hmem) hq)
      have liftA : ∀ x ∈ nodesE l (p ++ [0]), x ∈ nodesE tglob [] := by
        intro x hx
        apply hlift
        simp only [nodesE, List.mem_cons, List.mem_append]
        tauto
      have liftB : ∀ x ∈ nodesE r (p ++ [1]), x ∈ nodesE tglob [] := by
        intro x hx
        apply hlift
        simp only [nodesE, List.mem_cons, List.mem_append]
        tauto
      have herrA := wf_no_err.1 l (p ++ [0]) (cutOnly k) hwf.1
      have hA := ihl (p ++ [0]) hwf.1 liftA (child_inv q p 0 hpq)
      have hB := ihr (p ++ [1]) hwf.2 liftB (child_inv q p 1 hpq)
      simp only [runEntry]
      rw [nodeR_events_nocut _ _ _ _ hck]
      rw [seqR_events _ _ herrA]
      simp only [nodesE]
      rw [List.filter_cons_of_pos (by simp [properUnder, hpq]), List.filter_append]
      rw [visitsOf_cons_enter, visitsOf_cons_visit, visitsOf_append, hA, hB]
  · intro l r ihl ihr p hwf hlift hthird
    simp [wfE] at hwf
    by_cases hk : ASTNodeType.EQ = k
    · subst hk
      have htail : ∀ x ∈ nodesE l (p ++ [0]) ++ nodesE r (p ++ [1]),
          ∃ j : Nat, pathIsUnder (p ++ [j]) x.1 = true := by
        intro x hx
        rcases List.mem_append.mp hx with hx | hx
        · exact ⟨0, (nodes_shape.1 l (p ++ [0])).1 x hx⟩
        · exact ⟨1, (nodes_shape.1 r (p ++ [1])).1 x hx⟩
      have hmem : ((p, ASTNodeType.EQ) : Path × ASTNodeType) ∈ nodesE (.eq l r) p := by
        simp [nodesE]
      have hu := honly _ (hlift _ hmem) rfl
      have hpq : p = q := by
        rcases hthird with h | h
        · rw [hu] at h
          cases h
        · exact h
      subst hpq
      simp only [runEntry]
      rw [nodeR_events_cut _ _ _ _ (by simp [cutOnly])]
      simp only [nodesE]
      rw [cutcase_filter p _ _ htail]
      simp [visitsOf]
    · have hck : cutOnly k ASTNodeType.EQ = false := by
        simp [cutOnly]
        exact hk
      have hmem : ((p, ASTNodeType.EQ) : Path × ASTNodeType) ∈ nodesE (.eq l r) p := by
        simp [nodesE]
      have hpq : pathIsUnder q p = false := by
        rcases hthird with h | h
        · exact h
        · exfalso
          subst h
          exact hk (nodup_fst_unique hnd (hlift _ hmem) hq)
      have liftA : ∀ x ∈ nodesE l (p ++ [0]), x ∈ nodesE tglob [] := by
        intro x hx
        apply hlift
        simp only [nodesE, List.mem_cons, List.mem_append]
        tauto
      have liftB : ∀ x ∈ nodesE r (p ++ [1]), x ∈ nodesE tglob [] := by
        intro x hx
        apply hlift
        simp only [nodesE, List.mem_cons, List.mem_append]
        tauto
      have herrA := wf_no_err.1 l (p ++ [0]) (cutOnly k) hwf.1
      have hA := ihl (p ++ [0]) hwf.1 liftA (child_inv q p 0 hpq)
      have hB := ihr (p ++ [1]) hwf.2 liftB (child_inv q p 1 hpq)
      simp only [runEntry]
      rw [nodeR_events_nocut _ _ _ _ hck]
      rw [seqR_events _ _ herrA]
      simp only [nodesE]
      rw [List.filter_cons_of_pos (by simp [properUnder, hpq]), List.filter_append]
      rw [visitsOf_cons_enter, visitsOf_cons_visit, visitsOf_append, hA, hB]
  · intro l r ihl ihr p hwf hlift hthird
    simp [wfE] at hwf
    by_cases hk : ASTNodeType.NE = k
    · subst hk
      have htail : ∀ x ∈ nodesE l (p ++ [0]) ++ nodesE r (p ++ [1]),
          ∃ j : Nat, pathIsUnder (p ++ [j]) x.1 = true := by
        intro x hx
        rcases List.mem_append.mp hx with hx | hx
        · exact ⟨0, (nodes_shape.1 l (p ++ [0])).1 x hx⟩
        · exact ⟨1, (nodes_shape.1 r (p ++ [1])).1 x hx⟩
      have hmem : ((p, ASTNodeType.NE) : Path × ASTNodeType) ∈ nodesE (.ne l r) p := by
        simp [nodesE]
      have hu := honly _ (hlift _ hmem) rfl
      have hpq : p = q := by
        rcases hthird with h | h
        · rw [hu] at h
          cases h
        · exact h
      subst hpq
      simp only [runEntry]
      rw [nodeR_events_cut _ _ _ _ (by simp [cutOnly])]
      simp only [nodesE]
      rw [cutcase_filter p _ _ htail]
      simp [visitsOf]
    · have hck : cutOnly k ASTNodeType.NE = false := by
        simp [cutOnly]
        exact hk
      have hmem : ((p, ASTNodeType.NE) : Path × ASTNodeType) ∈ nodesE (.ne l r) p := by
        simp [nodesE]
      have hpq : pathIsUnder q p = false := by
        rcases hthird with h | h
        · exact h
        · exfalso
          subst h
          exact hk (nodup_fst_unique hnd (hlift _ hmem) hq)
      have liftA : ∀ x ∈ nodesE l (p ++ [0]), x ∈ nodesE tglob [] := by
        intro x hx
        apply hlift
        simp only [nodesE, List.mem_cons, List.mem_append]
        tauto
      have liftB : ∀ x ∈ nodesE r (p ++ [1]), x ∈ nodesE tglob [] := by
        intro x hx
        apply hlift
        simp only [nodesE, List.mem_cons, List.mem_append]
        tauto
      have herrA := wf_no_err.1 l (p ++ [0]) (cutOnly k) hwf.1
      have hA := ihl (p ++ [0]) hwf.1 liftA (child_inv q p 0 hpq)
      have hB := ihr (p ++ [1]) hwf.2 liftB (child_inv q p 1 hpq)
      simp only [runEntry]
      rw [nodeR_events_nocut _ _ _ _ hck]
      rw [seqR_events _ _ herrA]
      simp only [nodesE]
      rw [List.filter_cons_of_pos (by simp [properUnder, hpq]), List.filter_append]
      rw [visitsOf_cons_enter, visitsOf_cons_visit, visitsOf_append, hA, hB]
  · intro p i hwf hlift hbase
    simp [runList, nodesL, doneR, visitsOf]
  · intro s ss ihs ihss p i hwf hlift hbase
    simp [wfL] at hwf
    have liftA : ∀ x ∈ nodesE s (p ++ [i]), x ∈ nodesE tglob [] := by
      intro x hx
      apply hlift
      simp only [nodesL, List.mem_append]
      tauto
    have liftR : ∀ x ∈ nodesL ss p (i + 1), x ∈ nodesE tglob [] := by
      intro x hx
      apply hlift
      simp only [nodesL, List.mem_append]
      tauto
    have herrA := wf_no_err.1 s (p ++ [i]) (cutOnly k) hwf.1
    have hA := ihs (p ++ [i]) hwf.1 liftA (child_inv q p i hbase)
    have hR := ihss p (i + 1) hwf.2 liftR hbase
    simp only [runList, nodesL]
    rw [seqR_events _ _ herrA, visitsOf_append, hA, hR, List.filter_append]

/-! ### Last generic helpers for the claim statements -/

theorem nodeR_shape (cut : ASTNodeType → Bool) (k : ASTNodeType) (p : Path)
    (body : WalkResult) :
    ∃ rest, (nodeR cut k p body).events = .enter p :: .visit p k :: rest := by
  unfold nodeR
  split
  · exact ⟨[], rfl⟩
  · exact ⟨body.events, rfl⟩

theorem length_split (l : List Event) :
    l.length = (visitsOf l).length + (entersOf l).length := by
  induction l with
  | nil => rfl
  | cons ev t ih =>
    cases ev with
    | enter r =>
      simp only [List.length_cons, visitsOf_cons_enter, entersOf_cons_enter]
      omega
    | visit r k =>
      simp only [List.length_cons, visitsOf_cons_visit, entersOf_cons_visit]
      omega

theorem event_paths_in_nodes (h : Handle) (p : Path) (hwf : wfE h = true) :
    ∀ ev ∈ (runEntry cutNone h p).events, pathOf ev ∈ (nodesE h p).map Prod.fst := by
  intro ev hev
  have ht := walk_trace.1 h p hwf
  cases ev with
  | enter r =>
    have hm : r ∈ entersOf (runEntry cutNone h p).events :=
      List.mem_filterMap.mpr ⟨.enter r, hev, rfl⟩
    rw [ht.2] at hm
    simpa [pathOf] using hm
  | visit r k =>
    have hm : (r, k) ∈ visitsOf (runEntry cutNone h p).events :=
      List.mem_filterMap.mpr ⟨.visit r k, hev, rfl⟩
    rw [ht.1] at hm
    exact List.mem_map.mpr ⟨(r, k), hm, rfl⟩

theorem countOcc_eq_one {α : Type} [DecidableEq α] {l : List α} (hnd : l.Nodup)
    {x : α} (hx : x ∈ l) : countOcc l x = 1 := by
  induction l with
  | nil => simp at hx
  | cons y t ih =>
    rw [List.nodup_cons] at hnd
    rcases List.mem_cons.mp hx with rfl | hx2
    · simp only [countOcc]
      rw [List.filter_cons_of_pos (by simp)]
      have hnil : t.filter (fun z => decide (z = x)) = [] := by
        rw [List.filter_eq_nil_iff]
        intro z hz
        simp only [decide_eq_true_eq]
        intro hzx
        rw [hzx] at hz
        exact hnd.1 hz
      rw [hnil]
      rfl
    · have hyx : ¬(y = x) := by
        intro h
        rw [h] at hnd
        exact hnd.1 hx2
      simp only [countOcc]
      rw [List.filter_cons_of_neg (by simp [hyx])]
      exact ih hnd.2 hx2

/-! ### The claims -/

/-- C1: For every finite AST tree whose nodes all carry tags in the
closed kind set (and whose required children are present, per the
data-model invariants), a default walk invokes the per-kind handler of
every node exactly once: the handler invocations are exactly the nodes
of the tree in pre-order, and each node receives exactly one handler
invocation. -/
theorem c1_handler_invoked_once (t : Handle) (hwf : wfE t = true) :
    visitsOf (walk t).events = nodesE t [] ∧
      ∀ x ∈ nodesE t [], countOcc (visitsOf (walk t).events) x = 1 := by
  have htr := (walk_trace.1 t [] hwf).1
  have hnd : (nodesE t []).Nodup := (nodes_shape.1 t []).2.of_map
  constructor
  · exact htr
  · intro x hx
    have h1 : visitsOf (walk t).events = nodesE t [] := htr
    rw [h1]
    exact countOcc_eq_one hnd hx

/-- C1 witness: the claim instantiated on scenario S1. -/
theorem c1_witness :
    visitsOf (walk exS1).events = nodesE exS1 [] ∧
      ∀ x ∈ nodesE exS1 [], countOcc (visitsOf (walk exS1).events) x = 1 :=
  c1_handler_invoked_once exS1 (by simp [exS1, wfE, wfL])

/-- C2: In a default walk of a well-formed tree, for every position `r`
and child indices `i < j`, every event of the subtree rooted at child
`i` precedes every event of the subtree rooted at child `j`: the two
blocks are contiguous and in declared order.  In particular the children
of `Assign` (`var` at 0, `expr` at 1) and of every binary node (`lhs` at
0, `rhs` at 1) begin in declared order and each child subtree completes
before the next sibling begins. -/
theorem c2_preorder_blocks (t : Handle) (r : Path) (i j : Nat)
    (hij : i < j) :
    (walk t).events.filter
        (fun ev => pathIsUnder (r ++ [i]) (pathOf ev) || pathIsUnder (r ++ [j]) (pathOf ev))
      = (walk t).events.filter (fun ev => pathIsUnder (r ++ [i]) (pathOf ev))
        ++ (walk t).events.filter (fun ev => pathIsUnder (r ++ [j]) (pathOf ev)) := by
  apply filter_split evLE _ _ _ ((trace_sorted.1 t [] cutNone).2)
  · intro a b hR hQ hP
    have hR2 : preLe (pathOf a) (pathOf b) = true := hR
    have hf := preLe_sibling_not r i j (pathOf b) (pathOf a) hij hP hQ
    rw [hR2] at hf
    cases hf
  · intro a hP hQ
    exact absurd (pathIsUnder_snoc_inj r i j (pathOf a) hP hQ) (by omega)

/-- C2 witness: the claim instantiated on scenario S5 at the root. -/
theorem c2_witness :
    (walk exS5).events.filter
        (fun ev => pathIsUnder ([] ++ [0]) (pathOf ev) || pathIsUnder ([] ++ [1]) (pathOf ev))
      = (walk exS5).events.filter (fun ev => pathIsUnder ([] ++ [0]) (pathOf ev))
        ++ (walk exS5).events.filter (fun ev => pathIsUnder ([] ++ [1]) (pathOf ev)) :=
  c2_preorder_blocks exS5 [] 0 1 (by omega)

/-- C3 counterexample: on an `Assign` whose required child `var_` is
absent, the walk does not fail with a `NullChild` error; its fatal
outcome is the dereference of the null handle. -/
theorem c3_counterexample :
    (walk cexAssignNull).err ≠ some WalkError.NullChild ∧
      (walk cexAssignNull).err = some WalkError.NullDeref := by
  constructor <;> simp [walk, cexAssignNull, runEntry, cutNone, nodeR, seqR]

/-- C3 amended: when a default handler reaches a required child that is
absent, the walk is fatal at exactly that point — the handler passes the
null handle to the entry operation, which dereferences it (undefined
behavior in C++, the `NullDeref` outcome here); no default is
substituted, nothing below the absent child is walked, and no
`NullChild` error object is raised. -/
theorem c3_null_child_is_deref (e : Handle) (p : Path) :
    runEntry cutNone (.assign .null e) p
        = ⟨[.enter p, .visit p .Assign, .enter (p ++ [0])], some .NullDeref⟩ ∧
      runEntry cutNone (.function .null) p
        = ⟨[.enter p, .visit p .Function, .enter (p ++ [0])], some .NullDeref⟩ := by
  constructor <;> simp [runEntry, cutNone, nodeR, seqR]

/-- C3 witness for the amended claim, at a concrete expression child. -/
theorem c3_witness :
    runEntry cutNone (.assign .null .var) []
        = ⟨[.enter [], .visit [] .Assign, .enter ([] ++ [0])], some .NullDeref⟩ ∧
      runEntry cutNone (.function .null) []
        = ⟨[.enter [], .visit [] .Function, .enter ([] ++ [0])], some .NullDeref⟩ :=
  c3_null_child_is_deref .var []

/-- C4: The entry operation dispatches by tag.  (i) On a node whose tag
is outside the closed set, it fails with `UnknownKind` carrying that
tag, after emitting only the entry event: no handler is invoked and no
recursion is performed from that node.  (ii) On any non-null node whose
tag is one of the twenty kinds, the dispatch reaches that kind's
handler (so the unknown-kind branch is not taken there).  (iii) On a
well-formed tree — every tag in the closed set, required children
present — the walk never produces any fatal outcome at all. -/
theorem c4_unknown_kind_iff (cut : ASTNodeType → Bool) (h : Handle) (p : Path) :
    (∀ code, h = .unknown code →
      runEntry cut h p = ⟨[.enter p], some (.UnknownKind code)⟩) ∧
    (h ≠ .null → (∀ code, h ≠ .unknown code) →
      ∃ k rest, (runEntry cut h p).events = .enter p :: .visit p k :: rest) ∧
    (wfE h = true → (runEntry cut h p).err = none) := by
  refine ⟨?_, ?_, ?_⟩
  · intro code hcode
    subst hcode
    simp [runEntry]
  · intro hn hu
    cases h with
    | null => exact absurd rfl hn
    | unknown code => exact absurd rfl (hu code)
    | program fs =>
      simp only [runEntry]
      exact ⟨.Program, nodeR_shape _ _ _ _⟩
    | function b =>
      simp only [runEntry]
      exact ⟨.Function, nodeR_shape _ _ _ _⟩
    | stmtSeq ss =>
      simp only [runEntry]
      exact ⟨.StmtSeq, nodeR_shape _ _ _ _⟩
    | integer =>
      simp only [runEntry]
      exact ⟨.Integer, nodeR_shape _ _ _ _⟩
    | var =>
      simp only [runEntry]
      exact ⟨.Var, nodeR_shape _ _ _ _⟩
    | assign v e =>
      simp only [runEntry]
      exact ⟨.Assign, nodeR_shape _ _ _ _⟩
    | invoke e =>
      simp only [runEntry]
      exact ⟨.Invoke, nodeR_shape _ _ _ _⟩
    | ifThenElse c t e =>
      simp only [runEntry]
      exact ⟨.IfThenElse, nodeR_shape _ _ _ _⟩
    | whileLoop c b =>
      simp only [runEntry]
      exact ⟨.While, nodeR_shape _ _ _ _⟩
    | call =>
      simp only [runEntry]
      exact ⟨.Call, nodeR_shape _ _ _ _⟩
    | add l r =>
      simp only [runEntry]
      exact ⟨.Add, nodeR_shape _ _ _ _⟩
    | sub l r =>
      simp only [runEntry]
      exact ⟨.Sub, nodeR_shape _ _ _ _⟩
    | mul l r =>
      simp only [runEntry]
      exact ⟨.Mul, nodeR_shape _ _ _ _⟩
    | div l r =>
      simp only [runEntry]
      exact ⟨.Div, nodeR_shape _ _ _ _⟩
    | lt l r =>
      simp only [runEntry]
      exact ⟨.LT, nodeR_shape _ _ _ _⟩
    | le l r =>
      simp only [runEntry]
      exact ⟨.LE, nodeR_shape _ _ _ _⟩
    | gt l r =>
      simp only [runEntry]
      exact ⟨.GT, nodeR_shape _ _ _ _⟩
    | ge l r =>
      simp only [runEntry]
      exact ⟨.GE, nodeR_shape _ _ _ _⟩
    | eq l r =>
      simp only [runEntry]
      exact ⟨.EQ, nodeR_shape _ _ _ _⟩
    | ne l r =>
      simp only [runEntry]
      exact ⟨.NE, nodeR_shape _ _ _ _⟩
  · exact wf_no_err.1 h p cut

/-- C4 witness: the claim instantiated on a synthetic unknown-tag node
(scenario S6) with the default override set. -/
theorem c4_witness :
    (∀ code, (Handle.unknown 42) = .unknown code →
      runEntry cutNone (.unknown 42) [] = ⟨[.enter []], some (.UnknownKind code)⟩) ∧
    ((Handle.unknown 42) ≠ .null → (∀ code, (Handle.unknown 42) ≠ .unknown code) →
      ∃ k rest, (runEntry cutNone (.unknown 42) []).events = .enter [] :: .visit [] k :: rest) ∧
    (wfE (.unknown 42) = true → (runEntry cutNone (.unknown 42) []).err = none) :=
  c4_unknown_kind_iff cutNone (.unknown 42) []

/-- C5: A default walk of an `IfThenElse` whose `elseCase` is absent
completes without error; the handler walks `cond` (child 0) then
`thenCase` (child 1), and no event at all arises at or below the
position of the absent branch (child 2). -/
theorem c5_absent_else (c t : Handle) (p : Path) (hc : wfE c = true) (ht : wfE t = true) :
    (runEntry cutNone (.ifThenElse c t .null) p).err = none ∧
    visitsOf (runEntry cutNone (.ifThenElse c t .null) p).events
      = (p, .IfThenElse) :: (nodesE c (p ++ [0]) ++ nodesE t (p ++ [1])) ∧
    (runEntry cutNone (.ifThenElse c t .null) p).events.filter
        (fun ev => pathIsUnder (p ++ [2]) (pathOf ev)) = [] := by
  have hwf : wfE (.ifThenElse c t .null) = true := by
    simp [wfE, Handle.isNull, hc, ht]
  refine ⟨wf_no_err.1 _ p cutNone hwf, ?_, ?_⟩
  · have htr := (walk_trace.1 _ p hwf).1
    rw [htr]
    simp [nodesE, Handle.isNull]
  · rw [List.filter_eq_nil_iff]
    intro ev hev
    have hin := event_paths_in_nodes _ p hwf ev hev
    rw [List.mem_map] at hin
    obtain ⟨x, hx, hxe⟩ := hin
    simp only [nodesE, Handle.isNull, if_pos, List.append_nil, List.mem_cons,
      List.mem_append] at hx
    rw [← hxe]
    rcases hx with hx | hx | hx
    · rw [hx]
      intro hcon
      have := pathIsUnder_length _ _ hcon
      simp at this
    · have h0 := (nodes_shape.1 c (p ++ [0])).1 x hx
      intro hcon
      exact absurd (pathIsUnder_snoc_inj p 0 2 x.1 h0 hcon) (by omega)
    · have h1 := (nodes_shape.1 t (p ++ [1])).1 x hx
      intro hcon
      exact absurd (pathIsUnder_snoc_inj p 1 2 x.1 h1 hcon) (by omega)

/-- C5 witness: scenario S4,
`IfThenElse(EQ(Var, Integer), Assign(Var, Integer), absent)`. -/
theorem c5_witness :
    (runEntry cutNone (.ifThenElse (.eq .var .integer) (.assign .var .integer) .null) []).err = none ∧
    visitsOf (runEntry cutNone (.ifThenElse (.eq .var .integer) (.assign .var .integer) .null) []).events
      = ([], .IfThenElse) :: (nodesE (.eq .var .integer) ([] ++ [0]) ++ nodesE (.assign .var .integer) ([] ++ [1])) ∧
    (runEntry cutNone (.ifThenElse (.eq .var .integer) (.assign .var .integer) .null) []).events.filter
        (fun ev => pathIsUnder ([] ++ [2]) (pathOf ev)) = [] :=
  c5_absent_else (.eq .var .integer) (.assign .var .integer) []
    (by simp [wfE]) (by simp [wfE])

/-- C7: The default handlers of `Call`, `Integer` and `Var` walk no
children: a default walk of a node of one of these kinds consists of
exactly the entry event and that node's handler invocation, with no
further events and no error. -/
theorem c7_leaf_handlers (p : Path) :
    runEntry cutNone .integer p = ⟨[.enter p, .visit p .Integer], none⟩ ∧
    runEntry cutNone .var p = ⟨[.enter p, .visit p .Var], none⟩ ∧
    runEntry cutNone .call p = ⟨[.enter p, .visit p .Call], none⟩ := by
  refine ⟨?_, ?_, ?_⟩ <;> simp [runEntry, cutNone, nodeR, doneR]

/-- C6 counterexample: overriding the handler of a kind cuts at every
node of that kind, not only at the chosen node N.  In
`Add(Add(Integer, Integer), Integer)` take N to be the inner `Add` at
position `[0]`: the override of kind `Add` does not invoke the default
handler at N, N is not a descendant of itself, yet N receives a handler
invocation under the default walk and none under the overridden walk —
contradicting "every node that is not a descendant of N receives the
same handler invocations as under the default walk". -/
theorem c6_counterexample :
    (([0], ASTNodeType.Add) ∈ visitsOf (walk cexDoubleAdd).events) ∧
    (([0], ASTNodeType.Add) ∉ visitsOf (runEntry (cutOnly .Add) cexDoubleAdd []).events) := by
  constructor
  · simp [walk, cexDoubleAdd, runEntry, cutNone, nodeR, seqR, doneR, visitsOf]
  · simp [cexDoubleAdd, runEntry, cutOnly, nodeR, seqR, doneR, visitsOf]

/-- C6 amended: if additionally every node of N's kind in T lies at N or
below it (so the override can fire nowhere outside N's subtree — in
particular when N is the unique node of its kind), then a pass
overriding N's kind with a handler that does not invoke the default
visits no strict descendant of N, and every node of T that is not a
strict descendant of N receives exactly the handler invocations of the
default walk, in the same order.  `q` is N's position, `k` its kind. -/
theorem c6_cutoff_exactly_descendants (t : Handle) (q : Path) (k : ASTNodeType)
    (hwf : wfE t = true)
    (hq : (q, k) ∈ nodesE t [])
    (honly : ∀ x ∈ nodesE t [], x.2 = k → pathIsUnder q x.1 = true) :
    (runEntry (cutOnly k) t []).err = none ∧
    visitsOf (runEntry (cutOnly k) t []).events
      = (nodesE t []).filter (fun x => !(properUnder q x.1)) ∧
    (∀ x ∈ visitsOf (runEntry (cutOnly k) t []).events, properUnder q x.1 = false) ∧
    (∀ x ∈ nodesE t [], properUnder q x.1 = false →
      x ∈ visitsOf (runEntry (cutOnly k) t []).events) := by
  have hnd := (nodes_shape.1 t []).2
  have hroot : pathIsUnder q [] = false ∨ ([] : Path) = q := by
    cases q with
    | nil => exact Or.inr rfl
    | cons a as => exact Or.inl rfl
  have hfil := (cut_filter t q k hq hnd honly).1 t [] hwf (fun x hx => hx) hroot
  refine ⟨wf_no_err.1 t [] (cutOnly k) hwf, hfil, ?_, ?_⟩
  · intro x hx
    rw [hfil] at hx
    have hp := List.of_mem_filter hx
    simpa using hp
  · intro x hx hpu
    rw [hfil]
    exact List.mem_filter.mpr ⟨hx, by simp [hpu]⟩

/-- C6 witness for the amended claim: cutting kind `Add` at the root of
`Add(Add(Integer, Integer), Integer)` (all `Add` nodes lie in the root's
subtree). -/
theorem c6_witness :
    (runEntry (cutOnly .Add) cexDoubleAdd []).err = none ∧
    visitsOf (runEntry (cutOnly .Add) cexDoubleAdd []).events
      = (nodesE cexDoubleAdd []).filter (fun x => !(properUnder [] x.1)) ∧
    (∀ x ∈ visitsOf (runEntry (cutOnly .Add) cexDoubleAdd []).events,
      properUnder [] x.1 = false) ∧
    (∀ x ∈ nodesE cexDoubleAdd [], properUnder [] x.1 = false →
      x ∈ visitsOf (runEntry (cutOnly .Add) cexDoubleAdd []).events) :=
  c6_cutoff_exactly_descendants cexDoubleAdd [] .Add
    (by simp [cexDoubleAdd, wfE])
    (by simp [cexDoubleAdd, nodesE])
    (by simp [cexDoubleAdd, nodesE, pathIsUnder])

/-- C8: On every well-formed finite tree the default walk terminates
with a complete, error-free trace: it produces exactly two events per
node of the tree (one entry-operation invocation and one handler
invocation), so the traversal is total on such inputs. -/
theorem c8_walk_total (t : Handle) (hwf : wfE t = true) :
    (walk t).err = none ∧ (walk t).events.length = 2 * (nodesE t []).length := by
  refine ⟨wf_no_err.1 t [] cutNone hwf, ?_⟩
  have ht := walk_trace.1 t [] hwf
  have hl := length_split (walk t).events
  have h1 : visitsOf (walk t).events = nodesE t [] := ht.1
  have h2 : entersOf (walk t).events = (nodesE t []).map Prod.fst := ht.2
  rw [hl, h1, h2, List.length_map]
  omega

/-- C8 witness: the claim instantiated on scenario S1. -/
theorem c8_witness :
    (walk exS1).err = none ∧ (walk exS1).events.length = 2 * (nodesE exS1 []).length :=
  c8_walk_total exS1 (by simp [exS1, wfE, wfL])

/-- C9: The entry operation performs no null check on its own argument:
invoked on the null handle it immediately dereferences it (the
`NullDeref` outcome, which models the undefined C++ dereference), for
any override set; no `UnknownKind` and no `NullChild` error is raised
for a null entry handle, and no per-kind handler is invoked — those
branches lie behind the tag read, which never completes. -/
theorem c9_null_entry_no_check (cut : ASTNodeType → Bool) (p : Path) :
    runEntry cut .null p = ⟨[.enter p], some .NullDeref⟩ ∧
    (∀ code, (runEntry cut .null p).err ≠ some (.UnknownKind code)) ∧
    (runEntry cut .null p).err ≠ some .NullChild ∧
    visitsOf (runEntry cut .null p).events = [] := by
  refine ⟨?_, ?_, ?_, ?_⟩ <;> simp [runEntry, visitsOf]

/-- C9 witness: the claim instantiated for the default walker at the
root position. -/
theorem c9_witness :
    runEntry cutNone .null [] = ⟨[.enter []], some .NullDeref⟩ ∧
    (∀ code, (runEntry cutNone .null []).err ≠ some (.UnknownKind code)) ∧
    (runEntry cutNone .null []).err ≠ some .NullChild ∧
    visitsOf (runEntry cutNone .null []).events = [] :=
  c9_null_entry_no_check cutNone []

/-- C10: Every recursive descent of the default handlers goes through
the overridable entry operation: in a default walk of a well-formed
tree, the entry operation is invoked exactly once at every node of the
tree — non-root nodes included — so an override of the entry operation
is applied at every node's visit, not only at the root call. -/
theorem c10_entry_at_every_node (t : Handle) (hwf : wfE t = true) :
    entersOf (walk t).events = (nodesE t []).map Prod.fst ∧
    ∀ x ∈ nodesE t [], countOcc (entersOf (walk t).events) x.1 = 1 := by
  have ht := walk_trace.1 t [] hwf
  have h2 : entersOf (walk t).events = (nodesE t []).map Prod.fst := ht.2
  refine ⟨h2, ?_⟩
  intro x hx
  rw [h2]
  exact countOcc_eq_one (nodes_shape.1 t []).2 (List.mem_map.mpr ⟨x, hx, rfl⟩)

/-- C10 witness: the claim instantiated on scenario S1. -/
theorem c10_witness :
    entersOf (walk exS1).events = (nodesE exS1 []).map Prod.fst ∧
    ∀ x ∈ nodesE exS1 [], countOcc (entersOf (walk exS1).events) x.1 = 1 :=
  c10_entry_at_every_node exS1 (by simp [exS1, wfE, wfL])

end MDV
